import Mathlib

/-
Verification of the cuesheet front end in src/audiotools/cue.py.

The module is embedded shallowly:
  * the token stream of the generator function tokens() is modelled by
    tokensFn : List Char -> Except Nat (List Token), where the Nat error
    payload is the byte offset reported with ERR_CUE_INVALID_TOKEN;
  * the parser parse() is modelled by parse : List Token -> Except CueErr Sheet;
  * Python byte strings are modelled as List Char (one Char per byte);
  * fractions.Fraction(n, 75) is modelled by mkRat n 75.

The recursive scanning and parsing loops consume at least one character or
token per iteration; they are defined structurally over an explicit fuel
argument, and a proved adequacy lemma (fuel larger than the input length
never runs out) lets the top-level functions extract the result with
Option.get, so everything stays computable and kernel-reducible.
-/

deriving instance DecidableEq for Except

namespace Cue

/-! ### Token kinds (module-level constants of cue.py, lines 34-40) -/

def SPACE : Nat := 0x0
def TAG : Nat := 0x1
def NUMBER : Nat := 0x2
def EOL : Nat := 0x4
def STRING : Nat := 0x8
def ISRC : Nat := 0x10
def TIMESTAMP : Nat := 0x20

/-- Token values: NUMBER and TIMESTAMP tokens carry an integer, the other
kinds carry a plain string (a list of byte-characters). -/
inductive TokValue where
  | int (n : Nat)
  | str (s : List Char)
deriving DecidableEq, Repr

/-- One (value, element, line) triple yielded by the tokens() generator. -/
structure Token where
  value : TokValue
  kind : Nat
  line : Nat
deriving DecidableEq, Repr

/-! ### Character classes of the regular expressions used by tokens()

The source works on Python 2 byte strings; each class below is the ASCII
byte set matched by the corresponding regex class. -/

def isUpper (c : Char) : Bool := 65 ≤ c.toNat && c.toNat ≤ 90

def isLower (c : Char) : Bool := 97 ≤ c.toNat && c.toNat ≤ 122

def isDigit (c : Char) : Bool := 48 ≤ c.toNat && c.toNat ≤ 57

/-- The class [A-Za-z0-9]. -/
def isAlnum (c : Char) : Bool := isUpper c || isLower c || isDigit c

/-- Python 2 whitespace as matched by the regex metacharacter backslash-s:
space, tab, newline, carriage return, vertical tab, form feed. -/
def isPySpace (c : Char) : Bool :=
  c = ' ' || c = '\t' || c = '\n' || c = '\r' || c = '\x0b' || c = '\x0c'

def isEolChar (c : Char) : Bool := c = '\r' || c = '\n'

/-! ### Prefix matchers, one per entry of the ordered TOKENS list
(cue.py lines 64-71).  Each matcher returns the matched group together
with the rest of the buffer, or none when the anchored pattern fails. -/

/-- Match exactly n characters satisfying p. -/
def splitCount (p : Char → Bool) : Nat → List Char → Option (List Char × List Char)
  | 0, cs => some ([], cs)
  | _ + 1, [] => none
  | n + 1, c :: cs =>
    if p c then
      match splitCount p n cs with
      | none => none
      | some (g, r) => some (c :: g, r)
    else none

/-- Greedily match up to cap characters satisfying p (possibly zero). -/
def takeUpTo (p : Char → Bool) (cap : Nat) : List Char → (List Char × List Char)
  | [] => ([], [])
  | c :: cs =>
    if p c ∧ cap ≠ 0 then
      let gr := takeUpTo p (cap - 1) cs
      (c :: gr.1, gr.2)
    else ([], c :: cs)

/-- The pattern [A-Z]{2}[A-Za-z0-9]{3}[0-9]{7} anchored at the start. -/
def isrcMatch (cs : List Char) : Option (List Char × List Char) :=
  match splitCount isUpper 2 cs with
  | none => none
  | some (g1, r1) =>
    match splitCount isAlnum 3 r1 with
    | none => none
    | some (g2, r2) =>
      match splitCount isDigit 7 r2 with
      | none => none
      | some (g3, r3) => some (g1 ++ g2 ++ g3, r3)

/-- The pattern [0-9]{1,3}:[0-9]{1,2}:[0-9]{1,2} anchored at the start.
Greedy matching without backtracking coincides with the regex here: a
counted digit class followed by a colon can only match the full leading
digit run, because shrinking the run leaves a digit where the colon is
required. -/
def timestampMatch (cs : List Char) : Option (List Char × List Char) :=
  let m := takeUpTo isDigit 3 cs
  if m.1 = [] then none
  else
    match m.2 with
    | [] => none
    | c1 :: r1 =>
      if c1 = ':' then
        let s := takeUpTo isDigit 2 r1
        if s.1 = [] then none
        else
          match s.2 with
          | [] => none
          | c2 :: r2 =>
            if c2 = ':' then
              let f := takeUpTo isDigit 2 r2
              if f.1 = [] then none
              else some (m.1 ++ c1 :: s.1 ++ c2 :: f.1, f.2)
            else none
      else none

/-- The pattern [0-9]+ anchored at the start. -/
def numberMatch (cs : List Char) : Option (List Char × List Char) :=
  let g := cs.takeWhile isDigit
  if g = [] then none else some (g, cs.dropWhile isDigit)

/-- The pattern for one or more carriage returns / line feeds. -/
def eolMatch (cs : List Char) : Option (List Char × List Char) :=
  let g := cs.takeWhile isEolChar
  if g = [] then none else some (g, cs.dropWhile isEolChar)

/-- Scan for the closing quote of a non-greedy quoted match: the matched
continuation up to and including the first quote, failing on a newline (the
regex dot does not match a line feed). -/
def findClose : List Char → Option (List Char × List Char)
  | [] => none
  | c :: cs =>
    if c = '"' then some ([c], cs)
    else if c = '\n' then none
    else
      match findClose cs with
      | none => none
      | some (g, r) => some (c :: g, r)

/-- The non-greedy quoted pattern: a quote, at least one dot character,
then the earliest closing quote. -/
def quotedMatch : List Char → Option (List Char × List Char)
  | [] => none
  | c :: cs =>
    if c = '"' then
      match cs with
      | [] => none
      | c0 :: rest =>
        if c0 = '\n' then none
        else
          match findClose rest with
          | none => none
          | some (g, r) => some (c :: c0 :: g, r)
    else none

/-- The bare-string pattern: one or more non-whitespace characters. -/
def bareMatch (cs : List Char) : Option (List Char × List Char) :=
  let g := cs.takeWhile (fun c => !isPySpace c)
  if g = [] then none else some (g, cs.dropWhile (fun c => !isPySpace c))

/-- The pattern for one or more space characters. -/
def spaceMatch (cs : List Char) : Option (List Char × List Char) :=
  let g := cs.takeWhile (fun c => c = ' ')
  if g = [] then none else some (g, cs.dropWhile (fun c => c = ' '))

/-- Try the ordered TOKENS list against the start of the buffer; the first
pattern that matches wins.  Returns the element constant, the matched
group and the remaining buffer. -/
def firstMatch (cs : List Char) : Option (Nat × List Char × List Char) :=
  match isrcMatch cs with
  | some (g, r) => some (ISRC, g, r)
  | none =>
    match timestampMatch cs with
    | some (g, r) => some (TIMESTAMP, g, r)
    | none =>
      match numberMatch cs with
      | some (g, r) => some (NUMBER, g, r)
      | none =>
        match eolMatch cs with
        | some (g, r) => some (EOL, g, r)
        | none =>
          match quotedMatch cs with
          | some (g, r) => some (STRING, g, r)
          | none =>
            match bareMatch cs with
            | some (g, r) => some (STRING, g, r)
            | none =>
              match spaceMatch cs with
              | some (g, r) => some (SPACE, g, r)
              | none => none

/-- The TAGMATCH pattern [A-Z]+ applied to a whole group. -/
def isTagMatch (g : List Char) : Bool := !g.isEmpty && g.all isUpper

/-- Python str.strip applied with the quote character: remove every
leading and every trailing double quote. -/
def stripQuotes (g : List Char) : List Char :=
  ((g.dropWhile (fun c => c = '"')).reverse.dropWhile (fun c => c = '"')).reverse

/-- Python int() on a string of decimal digits. -/
def charsToNat (g : List Char) : Nat :=
  g.foldl (fun a c => a * 10 + (c.toNat - 48)) 0

/-- Python str.split on the colon character. -/
def splitColon : List Char → List (List Char)
  | [] => [[]]
  | c :: cs =>
    if c = ':' then [] :: splitColon cs
    else
      match splitColon cs with
      | [] => [[c]]
      | g :: gs => (c :: g) :: gs

/-- The value computed for a TIMESTAMP group: split mm:ss:ff on colons and
convert to a frame count (cue.py lines 92-95).  Groups produced by
timestampMatch always split into exactly three parts; the default branch
is unreachable from the scanner. -/
def tsValue (g : List Char) : Nat :=
  match splitColon g with
  | [m, s, f] => charsToNat m * 60 * 75 + charsToNat s * 75 + charsToNat f
  | _ => 0

/-- The yield performed for one matched group (cue.py lines 80-97):
returns the token to emit, if any, and the updated line counter.  SPACE
matches are consumed silently; an EOL match increments the line counter
before the token is yielded. -/
def emit (el : Nat) (g : List Char) (ln : Nat) : Option Token × Nat :=
  if el = SPACE then (none, ln)
  else if el = NUMBER then (some ⟨.int (charsToNat g), NUMBER, ln⟩, ln)
  else if el = EOL then (some ⟨.str g, EOL, ln + 1⟩, ln + 1)
  else if el = STRING then
    if isTagMatch g then (some ⟨.str g, TAG, ln⟩, ln)
    else (some ⟨.str (stripQuotes g), STRING, ln⟩, ln)
  else if el = TIMESTAMP then (some ⟨.int (tsValue g), TIMESTAMP, ln⟩, ln)
  else (some ⟨.str g, el, ln⟩, ln)

/-- The main scanning loop of tokens(): repeatedly strip the first
matching group off the buffer and emit its token, stopping when no
pattern matches.  Returns the emitted tokens and the unconsumed rest.
The fuel argument only makes the recursion structural; scanLoopF_isSome
below shows that fuel of length + 1 never runs out. -/
def scanLoopF : Nat → List Char → Nat → Option (List Token × List Char)
  | 0, _, _ => none
  | fuel + 1, cs, ln =>
    match firstMatch cs with
    | none => some ([], cs)
    | some (el, g, rest) =>
      let tl := emit el g ln
      match scanLoopF fuel rest tl.2 with
      | none => none
      | some (ts, rem) =>
        some ((match tl.1 with | none => ts | some t => t :: ts), rem)

/-! ### Consumption facts about the matchers -/

theorem splitCount_eq (p : Char → Bool) :
    ∀ n cs g r, splitCount p n cs = some (g, r) →
      g ++ r = cs ∧ g.length = n ∧ g.all p = true := by
  intro n
  induction n with
  | zero =>
    intro cs g r h
    simp only [splitCount, Option.some.injEq, Prod.mk.injEq] at h
    simp [← h.1, ← h.2]
  | succ n ih =>
    intro cs g r h
    cases cs with
    | nil => simp [splitCount] at h
    | cons c cs =>
      simp only [splitCount] at h
      by_cases hp : p c
      · rw [if_pos hp] at h
        cases hsc : splitCount p n cs with
        | none => rw [hsc] at h; exact absurd h (by simp)
        | some gr =>
          obtain ⟨g0, r0⟩ := gr
          rw [hsc] at h
          simp only [Option.some.injEq, Prod.mk.injEq] at h
          obtain ⟨h1, h2⟩ := h
          obtain ⟨e1, e2, e3⟩ := ih cs g0 r0 hsc
          subst h2
          rw [← h1]
          refine ⟨by simpa using e1, by simpa using e2, by simp [hp, e3]⟩
      · rw [if_neg hp] at h; exact absurd h (by simp)

theorem isrcMatch_eq (h : isrcMatch cs = some (g, r)) :
    g ++ r = cs ∧ g ≠ [] := by
  unfold isrcMatch at h
  split at h
  · exact absurd h (by simp)
  next g1 r1 h1 =>
    split at h
    · exact absurd h (by simp)
    next g2 r2 h2 =>
      split at h
      · exact absurd h (by simp)
      next g3 r3 h3 =>
        simp only [Option.some.injEq, Prod.mk.injEq] at h
        obtain ⟨e1a, e1b, _⟩ := splitCount_eq isUpper 2 cs g1 r1 h1
        obtain ⟨e2a, e2b, _⟩ := splitCount_eq isAlnum 3 r1 g2 r2 h2
        obtain ⟨e3a, e3b, _⟩ := splitCount_eq isDigit 7 r2 g3 r3 h3
        constructor
        · rw [← h.1, ← h.2, List.append_assoc, List.append_assoc, e3a, e2a, e1a]
        · rw [← h.1]
          intro hc
          obtain ⟨h12, _⟩ := List.append_eq_nil.mp hc
          obtain ⟨hh1, _⟩ := List.append_eq_nil.mp h12
          simp [hh1] at e1b

theorem takeUpTo_eq (p : Char → Bool) :
    ∀ cs cap, (takeUpTo p cap cs).1 ++ (takeUpTo p cap cs).2 = cs := by
  intro cs
  induction cs with
  | nil => intro cap; simp [takeUpTo]
  | cons c cs ih =>
    intro cap
    simp only [takeUpTo]
    by_cases hc : p c ∧ cap ≠ 0
    · rw [if_pos hc]; simpa using ih (cap - 1)
    · rw [if_neg hc]; simp

theorem timestampMatch_eq (h : timestampMatch cs = some (g, r)) :
    g ++ r = cs ∧ g ≠ [] := by
  unfold timestampMatch at h
  by_cases hm : (takeUpTo isDigit 3 cs).1 = []
  · rw [if_pos hm] at h; exact absurd h (by simp)
  · rw [if_neg hm] at h
    split at h
    · exact absurd h (by simp)
    next c1 r1 hr1 =>
      by_cases hc1 : c1 = ':'
      · rw [if_pos hc1] at h
        by_cases hs : (takeUpTo isDigit 2 r1).1 = []
        · rw [if_pos hs] at h; exact absurd h (by simp)
        · rw [if_neg hs] at h
          split at h
          · exact absurd h (by simp)
          next c2 r2 hr2 =>
            by_cases hc2 : c2 = ':'
            · rw [if_pos hc2] at h
              by_cases hf : (takeUpTo isDigit 2 r2).1 = []
              · rw [if_pos hf] at h; exact absurd h (by simp)
              · rw [if_neg hf] at h
                simp only [Option.some.injEq, Prod.mk.injEq] at h
                constructor
                · have e1 := takeUpTo_eq isDigit cs 3
                  have e2 := takeUpTo_eq isDigit r1 2
                  have e3 := takeUpTo_eq isDigit r2 2
                  have hcs : (takeUpTo isDigit 3 cs).1 ++
                      c1 :: ((takeUpTo isDigit 2 r1).1 ++
                        c2 :: ((takeUpTo isDigit 2 r2).1 ++ (takeUpTo isDigit 2 r2).2)) = cs := by
                    rw [e3, ← hr2, e2, ← hr1, e1]
                  rw [← h.1, ← h.2]
                  conv_rhs => rw [← hcs]
                  simp [List.append_assoc]
                · intro hc
                  apply hm
                  have h1 := h.1
                  rw [hc] at h1
                  exact (List.append_eq_nil.mp (List.append_eq_nil.mp h1).1).1
            · rw [if_neg hc2] at h
              exact absurd h (by simp)
      · rw [if_neg hc1] at h
        exact absurd h (by simp)

theorem numberMatch_eq (h : numberMatch cs = some (g, r)) :
    g ++ r = cs ∧ g ≠ [] := by
  unfold numberMatch at h
  by_cases hg : cs.takeWhile isDigit = []
  · rw [if_pos hg] at h; exact absurd h (by simp)
  · rw [if_neg hg] at h
    simp only [Option.some.injEq, Prod.mk.injEq] at h
    refine ⟨?_, by rw [← h.1]; exact hg⟩
    rw [← h.1, ← h.2]
    exact List.takeWhile_append_dropWhile _ _

theorem eolMatch_eq (h : eolMatch cs = some (g, r)) :
    g ++ r = cs ∧ g ≠ [] := by
  unfold eolMatch at h
  by_cases hg : cs.takeWhile isEolChar = []
  · rw [if_pos hg] at h; exact absurd h (by simp)
  · rw [if_neg hg] at h
    simp only [Option.some.injEq, Prod.mk.injEq] at h
    refine ⟨?_, by rw [← h.1]; exact hg⟩
    rw [← h.1, ← h.2]
    exact List.takeWhile_append_dropWhile _ _

theorem bareMatch_eq (h : bareMatch cs = some (g, r)) :
    g ++ r = cs ∧ g ≠ [] := by
  unfold bareMatch at h
  by_cases hg : cs.takeWhile (fun c => !isPySpace c) = []
  · rw [if_pos hg] at h; exact absurd h (by simp)
  · rw [if_neg hg] at h
    simp only [Option.some.injEq, Prod.mk.injEq] at h
    refine ⟨?_, by rw [← h.1]; exact hg⟩
    rw [← h.1, ← h.2]
    exact List.takeWhile_append_dropWhile _ _

theorem spaceMatch_eq (h : spaceMatch cs = some (g, r)) :
    g ++ r = cs ∧ g ≠ [] := by
  unfold spaceMatch at h
  by_cases hg : cs.takeWhile (fun c => c = ' ') = []
  · rw [if_pos hg] at h; exact absurd h (by simp)
  · rw [if_neg hg] at h
    simp only [Option.some.injEq, Prod.mk.injEq] at h
    refine ⟨?_, by rw [← h.1]; exact hg⟩
    rw [← h.1, ← h.2]
    exact List.takeWhile_append_dropWhile _ _

theorem findClose_eq : ∀ cs g r, findClose cs = some (g, r) → g ++ r = cs := by
  intro cs
  induction cs with
  | nil => intro g r h; simp [findClose] at h
  | cons c cs ih =>
    intro g r h
    simp only [findClose] at h
    by_cases hq : c = '"'
    · rw [if_pos hq] at h
      simp only [Option.some.injEq, Prod.mk.injEq] at h
      rw [← h.1, ← h.2, hq]
      simp
    · rw [if_neg hq] at h
      by_cases hn : c = '\n'
      · rw [if_pos hn] at h; exact absurd h (by simp)
      · rw [if_neg hn] at h
        cases hf : findClose cs with
        | none => rw [hf] at h; exact absurd h (by simp)
        | some gr =>
          obtain ⟨g0, r0⟩ := gr
          rw [hf] at h
          simp only [Option.some.injEq, Prod.mk.injEq] at h
          rw [← h.1, ← h.2]
          simpa using ih g0 r0 hf

theorem quotedMatch_eq (h : quotedMatch cs = some (g, r)) :
    g ++ r = cs ∧ g ≠ [] := by
  unfold quotedMatch at h
  split at h
  · exact absurd h (by simp)
  next c cs0 =>
    by_cases hq : c = '"'
    · rw [if_pos hq] at h
      split at h
      · exact absurd h (by simp)
      next c0 rest =>
        by_cases hn : c0 = '\n'
        · rw [if_pos hn] at h; exact absurd h (by simp)
        · rw [if_neg hn] at h
          cases hf : findClose rest with
          | none => rw [hf] at h; exact absurd h (by simp)
          | some gr =>
            obtain ⟨g0, r0⟩ := gr
            rw [hf] at h
            simp only [Option.some.injEq, Prod.mk.injEq] at h
            refine ⟨?_, by rw [← h.1]; simp⟩
            rw [← h.1, ← h.2]
            simpa using findClose_eq rest g0 r0 hf
    · rw [if_neg hq] at h
      exact absurd h (by simp)

theorem firstMatch_eq (h : firstMatch cs = some (el, g, rest)) :
    g ++ rest = cs ∧ g ≠ [] := by
  unfold firstMatch at h
  split at h
  next g0 r0 hm =>
    simp only [Option.some.injEq, Prod.mk.injEq] at h
    rw [← h.2.1, ← h.2.2]
    exact isrcMatch_eq hm
  next =>
    split at h
    next g0 r0 hm =>
      simp only [Option.some.injEq, Prod.mk.injEq] at h
      rw [← h.2.1, ← h.2.2]
      exact timestampMatch_eq hm
    next =>
      split at h
      next g0 r0 hm =>
        simp only [Option.some.injEq, Prod.mk.injEq] at h
        rw [← h.2.1, ← h.2.2]
        exact numberMatch_eq hm
      next =>
        split at h
        next g0 r0 hm =>
          simp only [Option.some.injEq, Prod.mk.injEq] at h
          rw [← h.2.1, ← h.2.2]
          exact eolMatch_eq hm
        next =>
          split at h
          next g0 r0 hm =>
            simp only [Option.some.injEq, Prod.mk.injEq] at h
            rw [← h.2.1, ← h.2.2]
            exact quotedMatch_eq hm
          next =>
            split at h
            next g0 r0 hm =>
              simp only [Option.some.injEq, Prod.mk.injEq] at h
              rw [← h.2.1, ← h.2.2]
              exact bareMatch_eq hm
            next =>
              split at h
              next g0 r0 hm =>
                simp only [Option.some.injEq, Prod.mk.injEq] at h
                rw [← h.2.1, ← h.2.2]
                exact spaceMatch_eq hm
              next => exact absurd h (by simp)

theorem firstMatch_lt (h : firstMatch cs = some (el, g, rest)) :
    rest.length < cs.length := by
  obtain ⟨he, hg⟩ := firstMatch_eq h
  have := congrArg List.length he
  simp only [List.length_append] at this
  have hgl : 0 < g.length := List.length_pos.mpr hg
  omega

theorem scanLoopF_isSome : ∀ fuel cs ln, cs.length < fuel →
    (scanLoopF fuel cs ln).isSome := by
  intro fuel
  induction fuel with
  | zero => intro cs ln h; omega
  | succ n ih =>
    intro cs ln h
    simp only [scanLoopF]
    cases hm : firstMatch cs with
    | none => simp
    | some egr =>
      obtain ⟨el, g, rest⟩ := egr
      have hlt := firstMatch_lt hm
      have hrec := ih rest (emit el g ln).2 (by omega)
      cases hs : scanLoopF n rest (emit el g ln).2 with
      | none => rw [hs] at hrec; simp at hrec
      | some tr => simp [hs]

theorem scanLoopF_congr : ∀ fuel fuel' cs ln, cs.length < fuel → cs.length < fuel' →
    scanLoopF fuel cs ln = scanLoopF fuel' cs ln := by
  intro fuel
  induction fuel with
  | zero => intro fuel' cs ln h; omega
  | succ n ih =>
    intro fuel' cs ln h h'
    cases fuel' with
    | zero => omega
    | succ n' =>
      simp only [scanLoopF]
      cases hm : firstMatch cs with
      | none => rfl
      | some egr =>
        obtain ⟨el, g, rest⟩ := egr
        have hlt := firstMatch_lt hm
        dsimp only
        rw [ih n' rest (emit el g ln).2 (by omega) (by omega)]

/-- Run the scanning loop with adequate fuel. -/
def runScan (cs : List Char) (ln : Nat) : List Token × List Char :=
  (scanLoopF (cs.length + 1) cs ln).get (scanLoopF_isSome _ _ _ (Nat.lt_succ_self _))

theorem scanLoopF_run (h : cs.length < fuel) (ln : Nat) :
    scanLoopF fuel cs ln = some (runScan cs ln) := by
  unfold runScan
  rw [scanLoopF_congr fuel (cs.length + 1) cs ln h (Nat.lt_succ_self _)]
  exact (Option.some_get _).symm

/-- One step of the scanner when a pattern matches. -/
theorem runScan_step (hm : firstMatch cs = some (el, g, rest)) (ln : Nat) :
    runScan cs ln =
      ((match (emit el g ln).1 with
        | none => (runScan rest (emit el g ln).2).1
        | some t => t :: (runScan rest (emit el g ln).2).1),
       (runScan rest (emit el g ln).2).2) := by
  have hlt := firstMatch_lt hm
  have hrun := @scanLoopF_run cs.length rest hlt (emit el g ln).2
  have hthis : scanLoopF (cs.length + 1) cs ln =
      some ((match (emit el g ln).1 with
        | none => (runScan rest (emit el g ln).2).1
        | some t => t :: (runScan rest (emit el g ln).2).1),
       (runScan rest (emit el g ln).2).2) := by
    simp only [scanLoopF, hm, hrun]
  have h2 := @scanLoopF_run (cs.length + 1) cs (Nat.lt_succ_self _) ln
  rw [hthis] at h2
  exact (Option.some_inj.mp h2).symm

/-- The scanner stops exactly when no pattern matches. -/
theorem runScan_stop (hm : firstMatch cs = none) (ln : Nat) :
    runScan cs ln = ([], cs) := by
  have hthis : scanLoopF (cs.length + 1) cs ln = some ([], cs) := by
    simp only [scanLoopF, hm]
  have h2 := @scanLoopF_run (cs.length + 1) cs (Nat.lt_succ_self _) ln
  rw [hthis] at h2
  exact (Option.some_inj.mp h2).symm

/-- The three bytes of the UTF-8 byte-order-mark, the argument given to
lstrip in cue.py line 59. -/
def bomChars : List Char := [Char.ofNat 0xEF, Char.ofNat 0xBB, Char.ofNat 0xBF]

/-- The tokens() generator (cue.py lines 49-105) run to completion: Python
str.lstrip removes every leading character drawn from the BOM byte set
(not only one exact EF BB BF prefix), then the scanning loop runs, and if
any input is left unconsumed the function fails with the invalid-token
byte offset full_length - len(rest). -/
def tokensFn (cuedata : List Char) : Except Nat (List Token) :=
  let stripped := cuedata.dropWhile (fun c => bomChars.contains c)
  let tr := runScan stripped 1
  if 0 < tr.2.length then .error (cuedata.length - tr.2.length) else .ok tr.1

/-! ### The parser (cue.py lines 108-292)

parse() keeps mutable locals (cuesheet_tracks, cuesheet_catalog_number,
track_number, track_indexes, track_audio, track_ISRC); they are gathered
in PState.  The locals index_number and index_offset of lines 163-164 are
only written immediately before being read inside the INDEX branch and
are modelled by plain bindings there.  A StopIteration escaping any
tokens.next() call inside the try block of lines 166-284 - including the
calls made from get_value and skip_to_eol - is caught by the handler of
line 285, which flushes an open track and returns the accumulated Sheet;
the GV/HRes constructors named stop model that propagating signal,
carrying the mutation state current at the moment it was raised. -/

/-- The distinct error-message constants passed to get_value or raised
directly (imported from .text in the source). -/
inductive ErrKind where
  | invalidTrackNumber
  | invalidTrackType
  | excessData
  | missingFilename
  | missingFiletype
  | invalidData
  | invalidFlag
  | invalidTimestamp
  | invalidIndexNumber
  | missingValue
deriving DecidableEq, Repr

/-- A CueException raised by parse(): either ERR_CUE_ERROR with an error
kind and line (raised by get_value), or ERR_CUE_INVALID_TAG with the
offending tag and line, or ERR_CUE_MISSING_TAG with the line. -/
inductive CueErr where
  | valueErr (k : ErrKind) (line : Nat)
  | invalidTag (tag : TokValue) (line : Nat)
  | missingTag (line : Nat)
deriving DecidableEq, Repr

/-- SheetIndex(number, offset): offset is the exact rational built with
fractions.Fraction. -/
structure SheetIndex where
  number : TokValue
  offset : ℚ
deriving DecidableEq, Repr

/-- SheetTrack(number, indexes, audio flag, ISRC). -/
structure SheetTrack where
  number : TokValue
  indexes : List SheetIndex
  audio : Bool
  isrc : Option TokValue
deriving DecidableEq, Repr

/-- Sheet(tracks, catalog_number). -/
structure Sheet where
  tracks : List SheetTrack
  catalog : Option TokValue
deriving DecidableEq, Repr

/-- The mutable locals of parse() (cue.py lines 155-161). -/
structure PState where
  cuesheet_tracks : List SheetTrack
  cuesheet_catalog_number : Option TokValue
  track_number : Option TokValue
  track_indexes : List SheetIndex
  track_audio : Bool
  track_ISRC : Option TokValue
deriving DecidableEq, Repr

/-- The initial values of the locals (lines 155-161). -/
def initState : PState := ⟨[], none, none, [], false, none⟩

/-- The flush of an open track into cuesheet_tracks, performed both on the
TRACK directive (lines 177-182) and in the StopIteration handler (lines
286-290). -/
def flushTracks (st : PState) : List SheetTrack :=
  match st.track_number with
  | some n =>
    st.cuesheet_tracks ++ [⟨n, st.track_indexes, st.track_audio, st.track_ISRC⟩]
  | none => st.cuesheet_tracks

/-- The StopIteration handler (lines 285-292): flush an open track and
build the Sheet from the accumulated state. -/
def finish (st : PState) : Sheet :=
  ⟨flushTracks st, st.cuesheet_catalog_number⟩

/-- Result of pulling one value from the token iterator: the iterator may
be exhausted (StopIteration), the pulled token may be rejected
(CueException), or the value is returned together with the rest of the
stream. -/
inductive GV (α : Type) where
  | stop
  | fail (e : CueErr)
  | ok (a : α) (rest : List Token)
deriving DecidableEq

/-- get_value (cue.py lines 108-126): pull the next token; accept it when
its kind shares a bit with the accept mask, otherwise raise ERR_CUE_ERROR
with the supplied error kind and the token's line number. -/
def get_value (toks : List Token) (accept : Nat) (err : ErrKind) : GV TokValue :=
  match toks with
  | [] => .stop
  | t :: rest =>
    if t.kind.land accept ≠ 0 then .ok t.value rest
    else .fail (.valueErr err t.line)

/-- skip_to_eol (cue.py lines 150-153): consume tokens up to and including
the first EOL token; none models the StopIteration escaping when the
stream is exhausted first. -/
def skip_to_eol : List Token → Option (List Token)
  | [] => none
  | t :: rest => if t.kind = EOL then some rest else skip_to_eol rest

/-- The words REM, TRACK, ... that parse() compares tag values against. -/
def kwREM : List Char := ['R', 'E', 'M']
def kwTRACK : List Char := ['T', 'R', 'A', 'C', 'K']
def kwCATALOG : List Char := ['C', 'A', 'T', 'A', 'L', 'O', 'G']
def kwCDTEXTFILE : List Char := ['C', 'D', 'T', 'E', 'X', 'T', 'F', 'I', 'L', 'E']
def kwPERFORMER : List Char := ['P', 'E', 'R', 'F', 'O', 'R', 'M', 'E', 'R']
def kwSONGWRITER : List Char := ['S', 'O', 'N', 'G', 'W', 'R', 'I', 'T', 'E', 'R']
def kwTITLE : List Char := ['T', 'I', 'T', 'L', 'E']
def kwFILE : List Char := ['F', 'I', 'L', 'E']
def kwISRC : List Char := ['I', 'S', 'R', 'C']
def kwFLAGS : List Char := ['F', 'L', 'A', 'G', 'S']
def kwINDEX : List Char := ['I', 'N', 'D', 'E', 'X']
def kwPOSTGAP : List Char := ['P', 'O', 'S', 'T', 'G', 'A', 'P']
def kwPREGAP : List Char := ['P', 'R', 'E', 'G', 'A', 'P']
def kwAUDIO : List Char := ['A', 'U', 'D', 'I', 'O']

/-- The comparison track_audio = (value == "AUDIO") of lines 188-191; an
integer value never equals the string. -/
def isAudioValue : TokValue → Bool
  | .str s => s = kwAUDIO
  | .int _ => false

/-- Fraction(index_offset, 75) of line 270.  A TIMESTAMP token always
carries an integer value when it comes from the lexer; on a string value
Python would raise a TypeError, which is unreachable from tokens(). -/
def fracOver75 : TokValue → ℚ
  | .int f => mkRat f 75
  | .str _ => 0

/-- The loop condition of line 249: the pulled value contains neither a
line feed nor a carriage return.  On an integer value Python would raise
a TypeError; such a token is never produced by the lexer for the kinds
the FLAGS branch accepts. -/
def noEolChars : TokValue → Bool
  | .str s => !(s.contains '\n' || s.contains '\r')
  | .int _ => true

/-- Outcome of one directive handler: StopIteration escaped (carrying the
mutation state reached so far), a CueException was raised, or the handler
finished and the top-level loop continues with the new state. -/
inductive HRes where
  | stop (st : PState)
  | fail (e : CueErr)
  | next (st : PState) (rest : List Token)
deriving DecidableEq

/-- The FLAGS branch (cue.py lines 244-252): pull STRING/TAG/EOL values,
collecting them into the discarded flags list, until a value containing an
end-of-line character arrives. -/
def flagsLoop : List Token → GV Unit
  | [] => .stop
  | t :: rest =>
    if t.kind.land (STRING.lor (TAG.lor EOL)) ≠ 0 then
      if noEolChars t.value then flagsLoop rest else .ok () rest
    else .fail (.valueErr .invalidFlag t.line)

/-- flagsLoop agrees with the loop of lines 246-252 written with
get_value. -/
theorem flagsLoop_eq_get_value (toks : List Token) :
    flagsLoop toks =
      match get_value toks (STRING.lor (TAG.lor EOL)) .invalidFlag with
      | .stop => .stop
      | .fail e => .fail e
      | .ok v rest => if noEolChars v then flagsLoop rest else .ok () rest := by
  cases toks with
  | nil => rfl
  | cons t rest =>
    by_cases h : t.kind.land (STRING.lor (TAG.lor EOL)) ≠ 0
    · simp [flagsLoop, get_value, h]
    · simp [flagsLoop, get_value, h]

/-- The TRACK branch (cue.py lines 176-194), including the flush of a
previously open track that happens before the new number is pulled. -/
def handleTrack (toks : List Token) (st : PState) : HRes :=
  let st1 := { st with cuesheet_tracks := flushTracks st }
  match get_value toks NUMBER .invalidTrackNumber with
  | .stop => .stop st1
  | .fail e => .fail e
  | .ok n r1 =>
    let st2 := { st1 with track_number := some n, track_indexes := [] }
    match get_value r1 (TAG.lor STRING) .invalidTrackType with
    | .stop => .stop st2
    | .fail e => .fail e
    | .ok tv r2 =>
      let st3 := { st2 with track_audio := isAudioValue tv, track_ISRC := none }
      match get_value r2 EOL .excessData with
      | .stop => .stop st3
      | .fail e => .fail e
      | .ok _ r3 => .next st3 r3

/-- The pre-track attribute branch (cue.py lines 199-213): CATALOG keeps
its STRING value, the other four directives accept and discard a value of
kind STRING, TAG, NUMBER or ISRC; both then require an EOL. -/
def handlePreAttr (isCatalog : Bool) (toks : List Token) (st : PState) : HRes :=
  if isCatalog then
    match get_value toks STRING .missingValue with
    | .stop => .stop st
    | .fail e => .fail e
    | .ok v r1 =>
      let st1 := { st with cuesheet_catalog_number := some v }
      match get_value r1 EOL .excessData with
      | .stop => .stop st1
      | .fail e => .fail e
      | .ok _ r2 => .next st1 r2
  else
    match get_value toks (STRING.lor (TAG.lor (NUMBER.lor ISRC))) .missingValue with
    | .stop => .stop st
    | .fail e => .fail e
    | .ok _ r1 =>
      match get_value r1 EOL .excessData with
      | .stop => .stop st
      | .fail e => .fail e
      | .ok _ r2 => .next st r2

/-- The pre-track FILE branch (cue.py lines 215-221): filename (STRING),
filetype (STRING or TAG), EOL; neither value is retained. -/
def handleFile (toks : List Token) (st : PState) : HRes :=
  match get_value toks STRING .missingFilename with
  | .stop => .stop st
  | .fail e => .fail e
  | .ok _ r1 =>
    match get_value r1 (STRING.lor TAG) .missingFiletype with
    | .stop => .stop st
    | .fail e => .fail e
    | .ok _ r2 =>
      match get_value r2 EOL .excessData with
      | .stop => .stop st
      | .fail e => .fail e
      | .ok _ r3 => .next st r3

/-- The in-track attribute branch (cue.py lines 229-242): ISRC keeps its
value (which must be an ISRC-kind token), the other three directives
accept and discard a value; both then require an EOL with
ERR_CUE_INVALID_DATA. -/
def handleTrackAttr (isIsrcTag : Bool) (toks : List Token) (st : PState) : HRes :=
  if isIsrcTag then
    match get_value toks ISRC .missingValue with
    | .stop => .stop st
    | .fail e => .fail e
    | .ok v r1 =>
      let st1 := { st with track_ISRC := some v }
      match get_value r1 EOL .invalidData with
      | .stop => .stop st1
      | .fail e => .fail e
      | .ok _ r2 => .next st1 r2
  else
    match get_value toks (STRING.lor (TAG.lor (NUMBER.lor ISRC))) .missingValue with
    | .stop => .stop st
    | .fail e => .fail e
    | .ok _ r1 =>
      match get_value r1 EOL .invalidData with
      | .stop => .stop st
      | .fail e => .fail e
      | .ok _ r2 => .next st r2

/-- The POSTGAP/PREGAP branch (cue.py lines 254-258): a TIMESTAMP then an
EOL, both discarded. -/
def handleGap (toks : List Token) (st : PState) : HRes :=
  match get_value toks TIMESTAMP .invalidTimestamp with
  | .stop => .stop st
  | .fail e => .fail e
  | .ok _ r1 =>
    match get_value r1 EOL .excessData with
    | .stop => .stop st
    | .fail e => .fail e
    | .ok _ r2 => .next st r2

/-- The INDEX branch (cue.py lines 260-272): a NUMBER, a TIMESTAMP, the
append of SheetIndex(number, Fraction(offset, 75)), then an EOL. -/
def handleIndex (toks : List Token) (st : PState) : HRes :=
  match get_value toks NUMBER .invalidIndexNumber with
  | .stop => .stop st
  | .fail e => .fail e
  | .ok inum r1 =>
    match get_value r1 TIMESTAMP .invalidTimestamp with
    | .stop => .stop st
    | .fail e => .fail e
    | .ok ioff r2 =>
      let st1 := { st with
        track_indexes := st.track_indexes ++ [⟨inum, fracOver75 ioff⟩] }
      match get_value r2 EOL .excessData with
      | .stop => .stop st1
      | .fail e => .fail e
      | .ok _ r3 => .next st1 r3

/-- Dispatch on a TAG token pulled by the top-level loop (cue.py lines
169-280): REM and TRACK first, then the pre-track directives while no
track is open, and the in-track directives once one is. -/
def handleTag (t : Token) (rest : List Token) (st : PState) : HRes :=
  if t.value = .str kwREM then
    match skip_to_eol rest with
    | none => .stop st
    | some r => .next st r
  else if t.value = .str kwTRACK then handleTrack rest st
  else
    match st.track_number with
    | none =>
      if t.value = .str kwCATALOG then handlePreAttr true rest st
      else if t.value = .str kwCDTEXTFILE ∨ t.value = .str kwPERFORMER ∨
          t.value = .str kwSONGWRITER ∨ t.value = .str kwTITLE then
        handlePreAttr false rest st
      else if t.value = .str kwFILE then handleFile rest st
      else .fail (.invalidTag t.value t.line)
    | some _ =>
      if t.value = .str kwISRC then handleTrackAttr true rest st
      else if t.value = .str kwPERFORMER ∨ t.value = .str kwSONGWRITER ∨
          t.value = .str kwTITLE then
        handleTrackAttr false rest st
      else if t.value = .str kwFLAGS then
        match flagsLoop rest with
        | .stop => .stop st
        | .fail e => .fail e
        | .ok _ r => .next st r
      else if t.value = .str kwPOSTGAP ∨ t.value = .str kwPREGAP then
        handleGap rest st
      else if t.value = .str kwINDEX then handleIndex rest st
      else if t.value = .str kwFILE then
        match skip_to_eol rest with
        | none => .stop st
        | some r => .next st r
      else .fail (.invalidTag t.value t.line)

/-- The top-level loop of parse() (cue.py lines 166-292): pull a token; a
non-TAG token raises ERR_CUE_MISSING_TAG; exhaustion at this pull - or a
StopIteration escaping a handler - ends the parse through the handler of
line 285.  The fuel argument only makes the recursion structural;
parseLoopF_isSome below shows that fuel of length + 1 never runs out. -/
def parseLoopF : Nat → List Token → PState → Option (Except CueErr Sheet)
  | 0, _, _ => none
  | _ + 1, [], st => some (.ok (finish st))
  | fuel + 1, t :: rest, st =>
    if t.kind = TAG then
      match handleTag t rest st with
      | .stop st1 => some (.ok (finish st1))
      | .fail e => some (.error e)
      | .next st1 r => parseLoopF fuel r st1
    else some (.error (.missingTag t.line))

/-! ### Consumption facts about the parser -/

theorem get_value_len (h : get_value toks accept err = .ok v rest) :
    rest.length < toks.length := by
  cases toks with
  | nil => simp [get_value] at h
  | cons t r =>
    simp only [get_value] at h
    by_cases ha : t.kind.land accept ≠ 0
    · rw [if_pos ha] at h
      simp only [GV.ok.injEq] at h
      rw [← h.2]
      simp
    · rw [if_neg ha] at h
      exact absurd h (by simp)

theorem skip_to_eol_len : ∀ toks r, skip_to_eol toks = some r →
    r.length < toks.length := by
  intro toks
  induction toks with
  | nil => intro r h; simp [skip_to_eol] at h
  | cons t rest ih =>
    intro r h
    simp only [skip_to_eol] at h
    by_cases he : t.kind = EOL
    · rw [if_pos he] at h
      simp only [Option.some.injEq] at h
      rw [← h]
      simp
    · rw [if_neg he] at h
      have := ih r h
      simp only [List.length_cons]
      omega

theorem flagsLoop_len : ∀ toks v r, flagsLoop toks = .ok v r →
    r.length < toks.length := by
  intro toks
  induction toks with
  | nil => intro v r h; simp [flagsLoop] at h
  | cons t rest ih =>
    intro v r h
    simp only [flagsLoop] at h
    by_cases ha : t.kind.land (STRING.lor (TAG.lor EOL)) ≠ 0
    · rw [if_pos ha] at h
      by_cases hn : noEolChars t.value
      · rw [if_pos hn] at h
        have := ih v r h
        simp only [List.length_cons]
        omega
      · rw [if_neg hn] at h
        simp only [GV.ok.injEq] at h
        rw [← h.2]
        simp
    · rw [if_neg ha] at h
      exact absurd h (by simp)

theorem handleTrack_len (h : handleTrack toks st = .next st1 r) :
    r.length < toks.length := by
  simp only [handleTrack] at h
  split at h
  · exact absurd h (by simp)
  · exact absurd h (by simp)
  next n r1 h1 =>
    split at h
    · exact absurd h (by simp)
    · exact absurd h (by simp)
    next tv r2 h2 =>
      split at h
      · exact absurd h (by simp)
      · exact absurd h (by simp)
      next v r3 h3 =>
        simp only [HRes.next.injEq] at h
        have l1 := get_value_len h1
        have l2 := get_value_len h2
        have l3 := get_value_len h3
        rw [← h.2]
        omega

theorem handlePreAttr_len (h : handlePreAttr b toks st = .next st1 r) :
    r.length < toks.length := by
  simp only [handlePreAttr] at h
  split at h
  · split at h
    · exact absurd h (by simp)
    · exact absurd h (by simp)
    next v r1 h1 =>
      split at h
      · exact absurd h (by simp)
      · exact absurd h (by simp)
      next v2 r2 h2 =>
        simp only [HRes.next.injEq] at h
        have l1 := get_value_len h1
        have l2 := get_value_len h2
        rw [← h.2]
        omega
  · split at h
    · exact absurd h (by simp)
    · exact absurd h (by simp)
    next v r1 h1 =>
      split at h
      · exact absurd h (by simp)
      · exact absurd h (by simp)
      next v2 r2 h2 =>
        simp only [HRes.next.injEq] at h
        have l1 := get_value_len h1
        have l2 := get_value_len h2
        rw [← h.2]
        omega

theorem handleFile_len (h : handleFile toks st = .next st1 r) :
    r.length < toks.length := by
  simp only [handleFile] at h
  split at h
  · exact absurd h (by simp)
  · exact absurd h (by simp)
  next v r1 h1 =>
    split at h
    · exact absurd h (by simp)
    · exact absurd h (by simp)
    next v2 r2 h2 =>
      split at h
      · exact absurd h (by simp)
      · exact absurd h (by simp)
      next v3 r3 h3 =>
        simp only [HRes.next.injEq] at h
        have l1 := get_value_len h1
        have l2 := get_value_len h2
        have l3 := get_value_len h3
        rw [← h.2]
        omega

theorem handleTrackAttr_len (h : handleTrackAttr b toks st = .next st1 r) :
    r.length < toks.length := by
  simp only [handleTrackAttr] at h
  split at h
  · split at h
    · exact absurd h (by simp)
    · exact absurd h (by simp)
    next v r1 h1 =>
      split at h
      · exact absurd h (by simp)
      · exact absurd h (by simp)
      next v2 r2 h2 =>
        simp only [HRes.next.injEq] at h
        have l1 := get_value_len h1
        have l2 := get_value_len h2
        rw [← h.2]
        omega
  · split at h
    · exact absurd h (by simp)
    · exact absurd h (by simp)
    next v r1 h1 =>
      split at h
      · exact absurd h (by simp)
      · exact absurd h (by simp)
      next v2 r2 h2 =>
        simp only [HRes.next.injEq] at h
        have l1 := get_value_len h1
        have l2 := get_value_len h2
        rw [← h.2]
        omega

theorem handleGap_len (h : handleGap toks st = .next st1 r) :
    r.length < toks.length := by
  simp only [handleGap] at h
  split at h
  · exact absurd h (by simp)
  · exact absurd h (by simp)
  next v r1 h1 =>
    split at h
    · exact absurd h (by simp)
    · exact absurd h (by simp)
    next v2 r2 h2 =>
      simp only [HRes.next.injEq] at h
      have l1 := get_value_len h1
      have l2 := get_value_len h2
      rw [← h.2]
      omega

theorem handleIndex_len (h : handleIndex toks st = .next st1 r) :
    r.length < toks.length := by
  simp only [handleIndex] at h
  split at h
  · exact absurd h (by simp)
  · exact absurd h (by simp)
  next v r1 h1 =>
    split at h
    · exact absurd h (by simp)
    · exact absurd h (by simp)
    next v2 r2 h2 =>
      split at h
      · exact absurd h (by simp)
      · exact absurd h (by simp)
      next v3 r3 h3 =>
        simp only [HRes.next.injEq] at h
        have l1 := get_value_len h1
        have l2 := get_value_len h2
        have l3 := get_value_len h3
        rw [← h.2]
        omega

theorem handleTag_len (h : handleTag t rest st = .next st1 r) :
    r.length < rest.length := by
  simp only [handleTag] at h
  split at h
  · split at h
    · exact absurd h (by simp)
    next r0 hs =>
      simp only [HRes.next.injEq] at h
      rw [← h.2]
      exact skip_to_eol_len rest r0 hs
  · split at h
    · exact handleTrack_len h
    · split at h
      · split at h
        · exact handlePreAttr_len h
        · split at h
          · exact handlePreAttr_len h
          · split at h
            · exact handleFile_len h
            · exact absurd h (by simp)
      · split at h
        · exact handleTrackAttr_len h
        · split at h
          · exact handleTrackAttr_len h
          · split at h
            · split at h
              · exact absurd h (by simp)
              · exact absurd h (by simp)
              next v r0 hf =>
                simp only [HRes.next.injEq] at h
                rw [← h.2]
                exact flagsLoop_len rest v r0 hf
            · split at h
              · exact handleGap_len h
              · split at h
                · exact handleIndex_len h
                · split at h
                  · split at h
                    · exact absurd h (by simp)
                    next r0 hs =>
                      simp only [HRes.next.injEq] at h
                      rw [← h.2]
                      exact skip_to_eol_len rest r0 hs
                  · exact absurd h (by simp)

theorem parseLoopF_isSome : ∀ fuel toks st, toks.length < fuel →
    (parseLoopF fuel toks st).isSome := by
  intro fuel
  induction fuel with
  | zero => intro toks st h; omega
  | succ n ih =>
    intro toks st h
    cases toks with
    | nil => simp [parseLoopF]
    | cons t rest =>
      simp only [parseLoopF]
      by_cases hk : t.kind = TAG
      · rw [if_pos hk]
        cases hh : handleTag t rest st with
        | stop st1 => simp
        | fail e => simp
        | next st1 r =>
          dsimp only
          have hlen := handleTag_len hh
          simp only [List.length_cons] at h
          exact ih r st1 (by omega)
      · rw [if_neg hk]
        simp

theorem parseLoopF_congr : ∀ fuel fuel' toks st, toks.length < fuel →
    toks.length < fuel' → parseLoopF fuel toks st = parseLoopF fuel' toks st := by
  intro fuel
  induction fuel with
  | zero => intro fuel' toks st h; omega
  | succ n ih =>
    intro fuel' toks st h h'
    cases fuel' with
    | zero => omega
    | succ n' =>
      cases toks with
      | nil => rfl
      | cons t rest =>
        simp only [parseLoopF]
        by_cases hk : t.kind = TAG
        · simp only [if_pos hk]
          cases hh : handleTag t rest st with
          | stop st1 => rfl
          | fail e => rfl
          | next st1 r =>
            dsimp only
            have hlen := handleTag_len hh
            simp only [List.length_cons] at h h'
            exact ih n' r st1 (by omega) (by omega)
        · simp only [if_neg hk]

/-- Run the parsing loop with adequate fuel: the model of parse() applied
to an arbitrary starting state. -/
def parseFrom (toks : List Token) (st : PState) : Except CueErr Sheet :=
  (parseLoopF (toks.length + 1) toks st).get (parseLoopF_isSome _ _ _ (Nat.lt_succ_self _))

/-- parse() (cue.py lines 129-292), starting from the initial locals. -/
def parse (toks : List Token) : Except CueErr Sheet :=
  parseFrom toks initState

/-- The composition parse(tokens(cuedata)) of read_cuesheet (cue.py line
467), restricted to inputs whose tokenization succeeds.  (In the source
the parser consumes the token generator lazily, so when both a lexical
error and a parse error are present the one reached first is raised; on
inputs where tokenization succeeds, as used below, lazy and eager
consumption agree.) -/
def parseCue (cuedata : List Char) : Option Sheet :=
  match tokensFn cuedata with
  | .ok ts => (parse ts).toOption
  | .error _ => none

theorem parseLoopF_run (h : toks.length < fuel) (st : PState) :
    parseLoopF fuel toks st = some (parseFrom toks st) := by
  unfold parseFrom
  rw [parseLoopF_congr fuel (toks.length + 1) toks st h (Nat.lt_succ_self _)]
  exact (Option.some_get _).symm

theorem parseFrom_nil (st : PState) : parseFrom [] st = .ok (finish st) := rfl

theorem parseFrom_next (hk : t.kind = TAG) (hh : handleTag t rest st = .next st1 r) :
    parseFrom (t :: rest) st = parseFrom r st1 := by
  have hlen := handleTag_len hh
  have hrun := @parseLoopF_run (t :: rest).length r
    (by simp only [List.length_cons]; omega) st1
  have hthis : parseLoopF ((t :: rest).length + 1) (t :: rest) st =
      some (parseFrom r st1) := by
    simp only [parseLoopF, if_pos hk, hh]
    exact hrun
  have h2 := @parseLoopF_run ((t :: rest).length + 1) (t :: rest)
    (Nat.lt_succ_self _) st
  rw [hthis] at h2
  exact (Option.some_inj.mp h2).symm

theorem parseFrom_stop (hk : t.kind = TAG) (hh : handleTag t rest st = .stop st1) :
    parseFrom (t :: rest) st = .ok (finish st1) := by
  have hthis : parseLoopF ((t :: rest).length + 1) (t :: rest) st =
      some (.ok (finish st1)) := by
    simp only [parseLoopF, if_pos hk, hh]
  have h2 := @parseLoopF_run ((t :: rest).length + 1) (t :: rest)
    (Nat.lt_succ_self _) st
  rw [hthis] at h2
  exact (Option.some_inj.mp h2).symm

theorem parseFrom_fail (hk : t.kind = TAG) (hh : handleTag t rest st = .fail e) :
    parseFrom (t :: rest) st = .error e := by
  have hthis : parseLoopF ((t :: rest).length + 1) (t :: rest) st =
      some (.error e) := by
    simp only [parseLoopF, if_pos hk, hh]
  have h2 := @parseLoopF_run ((t :: rest).length + 1) (t :: rest)
    (Nat.lt_succ_self _) st
  rw [hthis] at h2
  exact (Option.some_inj.mp h2).symm

theorem parseFrom_notag (hk : t.kind ≠ TAG) (rest : List Token) (st : PState) :
    parseFrom (t :: rest) st = .error (.missingTag t.line) := by
  have hthis : parseLoopF ((t :: rest).length + 1) (t :: rest) st =
      some (.error (.missingTag t.line)) := by
    simp only [parseLoopF, if_neg hk]
  have h2 := @parseLoopF_run ((t :: rest).length + 1) (t :: rest)
    (Nat.lt_succ_self _) st
  rw [hthis] at h2
  exact (Option.some_inj.mp h2).symm

/-! ### Facts about quote stripping -/

theorem dropWhile_self (p : Char → Bool) : ∀ l : List Char,
    (l.dropWhile p).dropWhile p = l.dropWhile p := by
  intro l
  induction l with
  | nil => rfl
  | cons c t ih =>
    rw [List.dropWhile_cons]
    by_cases h : p c
    · rw [if_pos h]; exact ih
    · rw [if_neg h, List.dropWhile_cons, if_neg h]

theorem dropWhile_append_last (p : Char → Bool) (c : Char) (hc : p c = false) :
    ∀ l : List Char, (l ++ [c]).dropWhile p = l.dropWhile p ++ [c] := by
  intro l
  induction l with
  | nil => simp [List.dropWhile_cons, hc]
  | cons d t ih =>
    rw [List.cons_append, List.dropWhile_cons, List.dropWhile_cons]
    by_cases h : p d
    · rw [if_pos h, if_pos h]; exact ih
    · rw [if_neg h, if_neg h, List.cons_append]

theorem dropWhile_shape (p : Char → Bool) : ∀ l : List Char, l.dropWhile p = [] ∨
    ∃ c t, l.dropWhile p = c :: t ∧ p c = false := by
  intro l
  induction l with
  | nil => left; rfl
  | cons c t ih =>
    rw [List.dropWhile_cons]
    by_cases h : p c
    · rw [if_pos h]; exact ih
    · rw [if_neg h]; right; exact ⟨c, t, rfl, by simpa using h⟩

/-- A stripped value has no leading quote left. -/
theorem stripQuotes_dropWhile (g : List Char) :
    (stripQuotes g).dropWhile (fun c => c = '"') = stripQuotes g := by
  rcases dropWhile_shape (fun c => c = '"') g with ha | ⟨c, t, ha, hc⟩
  · have hg : stripQuotes g = [] := by
      unfold stripQuotes
      rw [ha]
      rfl
    rw [hg]
    rfl
  · have hg : stripQuotes g =
        c :: ((t.reverse.dropWhile (fun c => c = '"')).reverse) := by
      unfold stripQuotes
      rw [ha, List.reverse_cons, dropWhile_append_last _ c hc, List.reverse_append]
      simp
    rw [hg, List.dropWhile_cons, if_neg (by simp_all)]

/-- Python strip is idempotent: a value that came out of strip does not
change when stripped again, i.e. it has no leading or trailing quote. -/
theorem stripQuotes_idem (g : List Char) :
    stripQuotes (stripQuotes g) = stripQuotes g := by
  conv_lhs => rw [stripQuotes]
  rw [stripQuotes_dropWhile g]
  conv_lhs => rw [stripQuotes]
  rw [List.reverse_reverse, dropWhile_self]
  rfl

/-! ### Which pattern produced a match, and the ISRC shape -/

theorem firstMatch_cases (h : firstMatch cs = some (el, g, rest)) :
    (el = ISRC ∧ isrcMatch cs = some (g, rest)) ∨
    (el = TIMESTAMP ∧ timestampMatch cs = some (g, rest)) ∨
    (el = NUMBER ∧ numberMatch cs = some (g, rest)) ∨
    (el = EOL ∧ eolMatch cs = some (g, rest)) ∨
    (el = STRING ∧ (quotedMatch cs = some (g, rest) ∨ bareMatch cs = some (g, rest))) ∨
    (el = SPACE ∧ spaceMatch cs = some (g, rest)) := by
  unfold firstMatch at h
  split at h
  next g0 r0 hm =>
    simp only [Option.some.injEq, Prod.mk.injEq] at h
    rw [h.2.1, h.2.2] at hm
    exact Or.inl ⟨h.1.symm, hm⟩
  next =>
    split at h
    next g0 r0 hm =>
      simp only [Option.some.injEq, Prod.mk.injEq] at h
      rw [h.2.1, h.2.2] at hm
      exact Or.inr (Or.inl ⟨h.1.symm, hm⟩)
    next =>
      split at h
      next g0 r0 hm =>
        simp only [Option.some.injEq, Prod.mk.injEq] at h
        rw [h.2.1, h.2.2] at hm
        exact Or.inr (Or.inr (Or.inl ⟨h.1.symm, hm⟩))
      next =>
        split at h
        next g0 r0 hm =>
          simp only [Option.some.injEq, Prod.mk.injEq] at h
          rw [h.2.1, h.2.2] at hm
          exact Or.inr (Or.inr (Or.inr (Or.inl ⟨h.1.symm, hm⟩)))
        next =>
          split at h
          next g0 r0 hm =>
            simp only [Option.some.injEq, Prod.mk.injEq] at h
            rw [h.2.1, h.2.2] at hm
            exact Or.inr (Or.inr (Or.inr (Or.inr (Or.inl ⟨h.1.symm, Or.inl hm⟩))))
          next =>
            split at h
            next g0 r0 hm =>
              simp only [Option.some.injEq, Prod.mk.injEq] at h
              rw [h.2.1, h.2.2] at hm
              exact Or.inr (Or.inr (Or.inr (Or.inr (Or.inl ⟨h.1.symm, Or.inr hm⟩))))
            next =>
              split at h
              next g0 r0 hm =>
                simp only [Option.some.injEq, Prod.mk.injEq] at h
                rw [h.2.1, h.2.2] at hm
                exact Or.inr (Or.inr (Or.inr (Or.inr (Or.inr ⟨h.1.symm, hm⟩))))
              next => exact absurd h (by simp)

/-- The lexical shape of an ISRC: 2 uppercase letters, 3 alphanumerics,
7 digits - 12 characters in all. -/
def isrcShape (s : List Char) : Bool :=
  s.length = 12 && (s.take 2).all isUpper && ((s.drop 2).take 3).all isAlnum &&
    (s.drop 5).all isDigit

theorem isrcMatch_shape (h : isrcMatch cs = some (g, r)) : isrcShape g = true := by
  unfold isrcMatch at h
  split at h
  · exact absurd h (by simp)
  next g1 r1 h1 =>
    split at h
    · exact absurd h (by simp)
    next g2 r2 h2 =>
      split at h
      · exact absurd h (by simp)
      next g3 r3 h3 =>
        simp only [Option.some.injEq, Prod.mk.injEq] at h
        obtain ⟨e1a, e1b, e1c⟩ := splitCount_eq isUpper 2 cs g1 r1 h1
        obtain ⟨e2a, e2b, e2c⟩ := splitCount_eq isAlnum 3 r1 g2 r2 h2
        obtain ⟨e3a, e3b, e3c⟩ := splitCount_eq isDigit 7 r2 g3 r3 h3
        rw [← h.1]
        unfold isrcShape
        have ht2 : (g1 ++ g2 ++ g3).take 2 = g1 := by
          rw [List.append_assoc, ← e1b, List.take_left]
        have hd2 : (g1 ++ g2 ++ g3).drop 2 = g2 ++ g3 := by
          rw [List.append_assoc, ← e1b, List.drop_left]
        have ht3 : (g2 ++ g3).take 3 = g2 := by
          rw [← e2b, List.take_left]
        have hd5 : (g1 ++ g2 ++ g3).drop 5 = g3 := by
          have h5 : (g1 ++ g2).length = 5 := by
            rw [List.length_append, e1b, e2b]
          rw [← h5, List.drop_left]
        have hlen : (g1 ++ g2 ++ g3).length = 12 := by
          simp only [List.length_append, e1b, e2b, e3b]
        rw [ht2, hd2, ht3, hd5, hlen]
        simp [e1c, e2c, e3c]

/-! ### The invariant satisfied by every token the lexer yields -/

/-- The facts individual yielded tokens always satisfy: an ISRC token's
value is a string of the exact ISRC shape, a TIMESTAMP token's value is an
integer, and a STRING token's value is a fixed point of quote
stripping. -/
def TokenInv (t : Token) : Prop :=
  (t.kind = ISRC → ∃ s, t.value = .str s ∧ isrcShape s = true) ∧
  (t.kind = TIMESTAMP → ∃ n, t.value = .int n) ∧
  (t.kind = STRING → ∃ s, t.value = .str s ∧ stripQuotes s = s)

theorem emit_token_inv (hfm : firstMatch cs = some (el, g, rest)) (ln : Nat) (t : Token)
    (ht : (emit el g ln).1 = some t) : TokenInv t := by
  rcases firstMatch_cases hfm with ⟨he, hm⟩ | ⟨he, hm⟩ | ⟨he, hm⟩ | ⟨he, hm⟩ |
    ⟨he, hm⟩ | ⟨he, hm⟩
  · subst he
    simp only [emit, ISRC, SPACE, NUMBER, EOL, STRING, TIMESTAMP] at ht
    norm_num at ht
    rw [← ht]
    refine ⟨fun _ => ⟨g, rfl, isrcMatch_shape hm⟩, fun hk => ?_, fun hk => ?_⟩
    · simp [ISRC, TIMESTAMP] at hk
    · simp [ISRC, STRING] at hk
  · subst he
    simp only [emit, TIMESTAMP, SPACE, NUMBER, EOL, STRING] at ht
    norm_num at ht
    rw [← ht]
    exact ⟨fun hk => by simp [ISRC, TIMESTAMP] at hk,
      fun _ => ⟨tsValue g, rfl⟩,
      fun hk => by simp [STRING, TIMESTAMP] at hk⟩
  · subst he
    simp only [emit, NUMBER, SPACE, EOL, STRING, TIMESTAMP] at ht
    norm_num at ht
    rw [← ht]
    exact ⟨fun hk => by simp [ISRC, NUMBER] at hk,
      fun hk => by simp [NUMBER, TIMESTAMP] at hk,
      fun hk => by simp [STRING, NUMBER] at hk⟩
  · subst he
    simp only [emit, EOL, SPACE, NUMBER, STRING, TIMESTAMP] at ht
    norm_num at ht
    rw [← ht]
    exact ⟨fun hk => by simp [ISRC, EOL] at hk,
      fun hk => by simp [EOL, TIMESTAMP] at hk,
      fun hk => by simp [STRING, EOL] at hk⟩
  · subst he
    simp only [emit, STRING, SPACE, NUMBER, EOL, TIMESTAMP] at ht
    norm_num at ht
    by_cases htag : isTagMatch g
    · rw [if_pos htag] at ht
      simp only [Option.some.injEq] at ht
      rw [← ht]
      exact ⟨fun hk => by simp [ISRC, TAG] at hk,
        fun hk => by simp [TAG, TIMESTAMP] at hk,
        fun hk => by simp [STRING, TAG] at hk⟩
    · rw [if_neg htag] at ht
      simp only [Option.some.injEq] at ht
      rw [← ht]
      exact ⟨fun hk => by simp [ISRC, STRING] at hk,
        fun hk => by simp [STRING, TIMESTAMP] at hk,
        fun _ => ⟨stripQuotes g, rfl, stripQuotes_idem g⟩⟩
  · subst he
    simp [emit, SPACE] at ht

theorem scanLoopF_tokens : ∀ fuel cs ln ts rem,
    scanLoopF fuel cs ln = some (ts, rem) → ∀ t ∈ ts, TokenInv t := by
  intro fuel
  induction fuel with
  | zero => intro cs ln ts rem h; simp [scanLoopF] at h
  | succ n ih =>
    intro cs ln ts rem h
    simp only [scanLoopF] at h
    cases hm : firstMatch cs with
    | none =>
      rw [hm] at h
      simp only [Option.some.injEq, Prod.mk.injEq] at h
      intro t ht
      rw [← h.1] at ht
      simp at ht
    | some egr =>
      obtain ⟨el, g, rest⟩ := egr
      rw [hm] at h
      dsimp only at h
      cases hs : scanLoopF n rest (emit el g ln).2 with
      | none => rw [hs] at h; exact absurd h (by simp)
      | some tsrem =>
        obtain ⟨ts0, rem0⟩ := tsrem
        rw [hs] at h
        simp only [Option.some.injEq, Prod.mk.injEq] at h
        have htail := ih rest (emit el g ln).2 ts0 rem0 hs
        intro t ht
        rw [← h.1] at ht
        cases hemit : (emit el g ln).1 with
        | none =>
          rw [hemit] at ht
          exact htail t ht
        | some tk =>
          rw [hemit] at ht
          rcases List.mem_cons.mp ht with rfl | hmem
          · exact emit_token_inv hm ln t hemit
          · exact htail t hmem

/-- Every token produced by a successful run of tokens() satisfies the
invariant. -/
theorem tokensFn_inv (h : tokensFn cuedata = .ok ts) : ∀ t ∈ ts, TokenInv t := by
  unfold tokensFn at h
  set stripped := cuedata.dropWhile (fun c => bomChars.contains c) with hstr
  by_cases hc : 0 < (runScan stripped 1).2.length
  · rw [if_pos hc] at h; exact absurd h (by simp)
  · rw [if_neg hc] at h
    simp only [Except.ok.injEq] at h
    have hscan := @scanLoopF_run (stripped.length + 1) stripped
      (Nat.lt_succ_self _) 1
    rw [← h]
    exact scanLoopF_tokens _ _ _ (runScan stripped 1).1 (runScan stripped 1).2
      (by rw [hscan])

/-! ### Lexing a whole word of the exact ISRC shape -/

theorem splitCount_of_all (p : Char → Bool) : ∀ n l, n ≤ l.length →
    (l.take n).all p = true → splitCount p n l = some (l.take n, l.drop n) := by
  intro n
  induction n with
  | zero => intro l _ _; simp [splitCount]
  | succ n ih =>
    intro l hlen hall
    cases l with
    | nil => simp at hlen
    | cons c t =>
      rw [List.take_succ_cons, List.all_cons, Bool.and_eq_true] at hall
      simp only [splitCount]
      rw [if_pos hall.1, ih t (by simpa using hlen) hall.2]
      rw [List.take_succ_cons, List.drop_succ_cons]

theorem isrcMatch_of_shape (w : List Char) (h : isrcShape w = true) :
    isrcMatch w = some (w, []) := by
  unfold isrcShape at h
  simp only [Bool.and_eq_true, decide_eq_true_eq] at h
  obtain ⟨⟨⟨hlen, h2⟩, h3⟩, h5⟩ := h
  have hdd : (w.drop 2).drop 3 = w.drop 5 := by
    rw [List.drop_drop]
  have hl5 : (w.drop 5).length = 7 := by
    rw [List.length_drop, hlen]
  have ht7 : (w.drop 5).take 7 = w.drop 5 := by
    rw [← hl5, List.take_length]
  unfold isrcMatch
  rw [splitCount_of_all isUpper 2 w (by omega) h2]
  dsimp only
  rw [splitCount_of_all isAlnum 3 (w.drop 2) (by rw [List.length_drop, hlen]; omega) h3]
  dsimp only
  rw [hdd]
  rw [splitCount_of_all isDigit 7 (w.drop 5) (by omega) (by rw [ht7]; exact h5)]
  dsimp only
  have hd12 : (w.drop 5).drop 7 = [] := by
    rw [List.drop_drop]
    have h12 : (5 + 7 : Nat) = 12 := rfl
    rw [h12, ← hlen, List.drop_length]
  have hw : w.take 2 ++ (w.drop 2).take 3 ++ (w.drop 5).take 7 = w := by
    rw [ht7, List.append_assoc]
    have hmid : (w.drop 2).take 3 ++ w.drop 5 = w.drop 2 := by
      rw [← hdd]
      exact List.take_append_drop 3 (w.drop 2)
    rw [hmid]
    exact List.take_append_drop 2 w
  rw [hd12, hw]

theorem firstMatch_of_isrc (h : isrcMatch cs = some (g, r)) :
    firstMatch cs = some (ISRC, g, r) := by
  unfold firstMatch
  rw [h]

theorem firstMatch_nil : firstMatch ([] : List Char) = none := by decide

theorem emit_isrc (g : List Char) (ln : Nat) :
    emit ISRC g ln = (some ⟨.str g, ISRC, ln⟩, ln) := by
  simp [emit, ISRC, SPACE, NUMBER, EOL, STRING, TIMESTAMP]

theorem upper_not_bom (c : Char) (h : isUpper c = true) : c ∉ bomChars := by
  unfold isUpper at h
  simp only [Bool.and_eq_true, decide_eq_true_eq] at h
  intro hm
  simp only [bomChars, List.mem_cons, List.not_mem_nil, or_false] at hm
  rcases hm with rfl | rfl | rfl
  · have : (Char.ofNat 0xEF).toNat = 239 := by decide
    omega
  · have : (Char.ofNat 0xBB).toNat = 187 := by decide
    omega
  · have : (Char.ofNat 0xBF).toNat = 191 := by decide
    omega

theorem dropWhile_bom_cons (c : Char) (t : List Char) (h : c ∉ bomChars) :
    (c :: t).dropWhile (fun c => bomChars.contains c) = c :: t := by
  rw [List.dropWhile_cons]
  simp [h]

/-- A whole buffer that is exactly one ISRC-shaped word lexes to a single
ISRC token carrying the word itself. -/
theorem tokensFn_isrc_word (w : List Char) (h : isrcShape w = true) :
    tokensFn w = .ok [⟨.str w, ISRC, 1⟩] := by
  have hm : firstMatch w = some (ISRC, w, []) :=
    firstMatch_of_isrc (isrcMatch_of_shape w h)
  have hup : ∃ c t, w = c :: t ∧ isUpper c = true := by
    unfold isrcShape at h
    simp only [Bool.and_eq_true, decide_eq_true_eq] at h
    obtain ⟨⟨⟨hlen, h2⟩, _⟩, _⟩ := h
    cases w with
    | nil => simp at hlen
    | cons c t =>
      refine ⟨c, t, rfl, ?_⟩
      rw [List.take_succ_cons, List.all_cons, Bool.and_eq_true] at h2
      exact h2.1
  obtain ⟨c, t, hw, hc⟩ := hup
  have hstrip : w.dropWhile (fun c => bomChars.contains c) = w := by
    rw [hw]
    exact dropWhile_bom_cons c t (upper_not_bom c hc)
  have hrs : runScan w 1 = ([⟨.str w, ISRC, 1⟩], []) := by
    rw [runScan_step hm 1, emit_isrc]
    dsimp only
    rw [runScan_stop firstMatch_nil 1]
  simp only [tokensFn]
  rw [hstrip, hrs]
  simp

/-! ### Lexing a whole buffer of the exact timestamp shape -/

theorem takeUpTo_stops (p : Char → Bool) (c : Char) (hc : p c = false) :
    ∀ l cap r, l.all p = true → l.length ≤ cap →
      takeUpTo p cap (l ++ c :: r) = (l, c :: r) := by
  intro l
  induction l with
  | nil =>
    intro cap r _ _
    simp only [List.nil_append, takeUpTo]
    rw [if_neg]
    intro hand
    rw [hc] at hand
    exact absurd hand.1 (by simp)
  | cons d t ih =>
    intro cap r hall hlen
    rw [List.all_cons, Bool.and_eq_true] at hall
    have hcap : cap ≠ 0 := by
      simp only [List.length_cons] at hlen
      omega
    show takeUpTo p cap (d :: (t ++ c :: r)) = (d :: t, c :: r)
    simp only [takeUpTo]
    rw [if_pos ⟨hall.1, hcap⟩]
    rw [ih (cap - 1) r hall.2 (by simp only [List.length_cons] at hlen; omega)]

theorem takeUpTo_all (p : Char → Bool) : ∀ l cap, l.all p = true → l.length ≤ cap →
    takeUpTo p cap l = (l, []) := by
  intro l
  induction l with
  | nil => intro cap _ _; rfl
  | cons d t ih =>
    intro cap hall hlen
    rw [List.all_cons, Bool.and_eq_true] at hall
    have hcap : cap ≠ 0 := by
      simp only [List.length_cons] at hlen
      omega
    simp only [takeUpTo]
    rw [if_pos ⟨hall.1, hcap⟩]
    rw [ih (cap - 1) hall.2 (by simp only [List.length_cons] at hlen; omega)]

theorem digit_ne_colon (c : Char) (h : isDigit c = true) : c ≠ ':' := by
  intro he
  rw [he] at h
  exact absurd h (by decide)

theorem digit_not_upper (c : Char) (h : isDigit c = true) : isUpper c = false := by
  unfold isDigit at h
  simp only [Bool.and_eq_true, decide_eq_true_eq] at h
  unfold isUpper
  have hlt : ¬ (65 ≤ c.toNat) := by omega
  simp [hlt]

theorem splitColon_no_colon : ∀ l : List Char, (∀ c ∈ l, c ≠ ':') →
    splitColon l = [l] := by
  intro l
  induction l with
  | nil => intro _; rfl
  | cons c t ih =>
    intro h
    have hc : c ≠ ':' := h c (by simp)
    simp only [splitColon]
    rw [if_neg hc, ih (fun d hd => h d (by simp [hd]))]

theorem splitColon_append (l : List Char) (hl : ∀ c ∈ l, c ≠ ':') (rest : List Char) :
    splitColon (l ++ ':' :: rest) = l :: splitColon rest := by
  induction l with
  | nil =>
    simp only [List.nil_append, splitColon]
    simp
  | cons c t ih =>
    have hc : c ≠ ':' := hl c (by simp)
    show splitColon (c :: (t ++ ':' :: rest)) = (c :: t) :: splitColon rest
    simp only [splitColon]
    rw [if_neg hc, ih (fun d hd => hl d (by simp [hd]))]

theorem isrcMatch_none_of_head (c : Char) (t : List Char) (h : isUpper c = false) :
    isrcMatch (c :: t) = none := by
  unfold isrcMatch
  have hsc : splitCount isUpper 2 (c :: t) = none := by
    simp only [splitCount]
    rw [if_neg (by simp [h])]
  rw [hsc]

theorem digit_not_bom (c : Char) (h : isDigit c = true) : c ∉ bomChars := by
  unfold isDigit at h
  simp only [Bool.and_eq_true, decide_eq_true_eq] at h
  intro hm
  simp only [bomChars, List.mem_cons, List.not_mem_nil, or_false] at hm
  rcases hm with rfl | rfl | rfl
  · have : (Char.ofNat 0xEF).toNat = 239 := by decide
    omega
  · have : (Char.ofNat 0xBB).toNat = 187 := by decide
    omega
  · have : (Char.ofNat 0xBF).toNat = 191 := by decide
    omega

theorem emit_timestamp (g : List Char) (ln : Nat) :
    emit TIMESTAMP g ln = (some ⟨.int (tsValue g), TIMESTAMP, ln⟩, ln) := by
  simp [emit, TIMESTAMP, SPACE, NUMBER, EOL, STRING]

theorem timestampMatch_parts (d1 d2 d3 : List Char)
    (h1 : d1.all isDigit = true) (h2 : d2.all isDigit = true) (h3 : d3.all isDigit = true)
    (l1a : 1 ≤ d1.length) (l1b : d1.length ≤ 3)
    (l2a : 1 ≤ d2.length) (l2b : d2.length ≤ 2)
    (l3a : 1 ≤ d3.length) (l3b : d3.length ≤ 2) :
    timestampMatch (d1 ++ ':' :: (d2 ++ ':' :: d3)) =
      some (d1 ++ ':' :: (d2 ++ ':' :: d3), []) := by
  have hcolon : isDigit ':' = false := by decide
  have hd1 : d1 ≠ [] := by intro he; rw [he] at l1a; simp at l1a
  have hd2 : d2 ≠ [] := by intro he; rw [he] at l2a; simp at l2a
  have hd3 : d3 ≠ [] := by intro he; rw [he] at l3a; simp at l3a
  unfold timestampMatch
  rw [takeUpTo_stops isDigit ':' hcolon d1 3 (d2 ++ ':' :: d3) h1 l1b]
  dsimp only
  rw [if_neg hd1, if_pos rfl]
  rw [takeUpTo_stops isDigit ':' hcolon d2 2 d3 h2 l2b]
  dsimp only
  rw [if_neg hd2, if_pos rfl]
  rw [takeUpTo_all isDigit d3 2 h3 l3b]
  dsimp only
  rw [if_neg hd3]
  simp [List.append_assoc]

/-- A whole buffer that is exactly one mm:ss:ff timestamp lexes to a
single TIMESTAMP token whose value is minutes times 60 times 75 plus
seconds times 75 plus frames. -/
theorem tokensFn_timestamp (d1 d2 d3 : List Char)
    (h1 : d1.all isDigit = true) (h2 : d2.all isDigit = true) (h3 : d3.all isDigit = true)
    (l1a : 1 ≤ d1.length) (l1b : d1.length ≤ 3)
    (l2a : 1 ≤ d2.length) (l2b : d2.length ≤ 2)
    (l3a : 1 ≤ d3.length) (l3b : d3.length ≤ 2) :
    tokensFn (d1 ++ ':' :: (d2 ++ ':' :: d3)) =
      .ok [⟨.int (charsToNat d1 * 60 * 75 + charsToNat d2 * 75 + charsToNat d3),
        TIMESTAMP, 1⟩] := by
  obtain ⟨c, t, hcons, hcd⟩ : ∃ c t, d1 = c :: t ∧ isDigit c = true := by
    cases d1 with
    | nil => simp at l1a
    | cons c t =>
      rw [List.all_cons, Bool.and_eq_true] at h1
      exact ⟨c, t, rfl, h1.1⟩
  have hts := timestampMatch_parts d1 d2 d3 h1 h2 h3 l1a l1b l2a l2b l3a l3b
  have hisrc : isrcMatch (d1 ++ ':' :: (d2 ++ ':' :: d3)) = none := by
    rw [hcons]
    exact isrcMatch_none_of_head c (t ++ ':' :: (d2 ++ ':' :: d3))
      (digit_not_upper c hcd)
  have hm : firstMatch (d1 ++ ':' :: (d2 ++ ':' :: d3)) =
      some (TIMESTAMP, d1 ++ ':' :: (d2 ++ ':' :: d3), []) := by
    unfold firstMatch
    rw [hisrc, hts]
  have hne1 : ∀ x ∈ d1, x ≠ ':' := fun x hx =>
    digit_ne_colon x (List.all_eq_true.mp h1 x hx)
  have hne2 : ∀ x ∈ d2, x ≠ ':' := fun x hx =>
    digit_ne_colon x (List.all_eq_true.mp h2 x hx)
  have hne3 : ∀ x ∈ d3, x ≠ ':' := fun x hx =>
    digit_ne_colon x (List.all_eq_true.mp h3 x hx)
  have htv : tsValue (d1 ++ ':' :: (d2 ++ ':' :: d3)) =
      charsToNat d1 * 60 * 75 + charsToNat d2 * 75 + charsToNat d3 := by
    unfold tsValue
    rw [splitColon_append d1 hne1, splitColon_append d2 hne2, splitColon_no_colon d3 hne3]
  have hstrip : (d1 ++ ':' :: (d2 ++ ':' :: d3)).dropWhile
      (fun c => bomChars.contains c) = d1 ++ ':' :: (d2 ++ ':' :: d3) := by
    rw [hcons]
    exact dropWhile_bom_cons c (t ++ ':' :: (d2 ++ ':' :: d3)) (digit_not_bom c hcd)
  have hrs : runScan (d1 ++ ':' :: (d2 ++ ':' :: d3)) 1 =
      ([⟨.int (tsValue (d1 ++ ':' :: (d2 ++ ':' :: d3))), TIMESTAMP, 1⟩], []) := by
    rw [runScan_step hm 1, emit_timestamp]
    dsimp only
    rw [runScan_stop firstMatch_nil 1]
  simp only [tokensFn]
  rw [hstrip, hrs, htv]
  simp

/-! ### Characterizing lexical failure -/

theorem numberMatch_none_of_head (c : Char) (t : List Char) (h : isDigit c = false) :
    numberMatch (c :: t) = none := by
  unfold numberMatch
  have htw : (c :: t).takeWhile isDigit = [] := by
    rw [List.takeWhile_cons, if_neg (by simp [h])]
  rw [htw]
  simp

theorem eolMatch_none_of_head (c : Char) (t : List Char) (h : isEolChar c = false) :
    eolMatch (c :: t) = none := by
  unfold eolMatch
  have htw : (c :: t).takeWhile isEolChar = [] := by
    rw [List.takeWhile_cons, if_neg (by simp [h])]
  rw [htw]
  simp

theorem bareMatch_none_of_head (c : Char) (t : List Char) (h : isPySpace c = true) :
    bareMatch (c :: t) = none := by
  unfold bareMatch
  have htw : (c :: t).takeWhile (fun c => !isPySpace c) = [] := by
    rw [List.takeWhile_cons, if_neg (by simp [h])]
  rw [htw]
  simp

theorem spaceMatch_none_of_head (c : Char) (t : List Char) (h : c ≠ ' ') :
    spaceMatch (c :: t) = none := by
  unfold spaceMatch
  have htw : (c :: t).takeWhile (fun c => c = ' ') = [] := by
    rw [List.takeWhile_cons, if_neg (by simp [h])]
  rw [htw]
  simp

theorem timestampMatch_none_of_head (c : Char) (t : List Char) (h : isDigit c = false) :
    timestampMatch (c :: t) = none := by
  unfold timestampMatch
  have htk : takeUpTo isDigit 3 (c :: t) = ([], c :: t) := by
    simp only [takeUpTo]
    rw [if_neg]
    intro hand
    rw [h] at hand
    exact absurd hand.1 (by simp)
  rw [htk]
  simp

theorem quotedMatch_none_of_head (c : Char) (t : List Char) (h : c ≠ '"') :
    quotedMatch (c :: t) = none := by
  simp only [quotedMatch]
  rw [if_neg h]

theorem bareMatch_none_head (c : Char) (t : List Char)
    (h : bareMatch (c :: t) = none) : isPySpace c = true := by
  by_contra hc
  rw [Bool.not_eq_true] at hc
  unfold bareMatch at h
  have htw : (c :: t).takeWhile (fun c => !isPySpace c) =
      c :: t.takeWhile (fun c => !isPySpace c) := by
    rw [List.takeWhile_cons, if_pos (by simp [hc])]
  rw [htw, if_neg (by simp)] at h
  exact absurd h (by simp)

theorem eolMatch_none_head (c : Char) (t : List Char)
    (h : eolMatch (c :: t) = none) : isEolChar c = false := by
  by_contra hc
  rw [Bool.not_eq_false] at hc
  unfold eolMatch at h
  have htw : (c :: t).takeWhile isEolChar = c :: t.takeWhile isEolChar := by
    rw [List.takeWhile_cons, if_pos (by simp [hc])]
  rw [htw, if_neg (by simp)] at h
  exact absurd h (by simp)

theorem spaceMatch_none_head (c : Char) (t : List Char)
    (h : spaceMatch (c :: t) = none) : c ≠ ' ' := by
  intro hc
  unfold spaceMatch at h
  have htw : (c :: t).takeWhile (fun c => c = ' ') =
      c :: t.takeWhile (fun c => c = ' ') := by
    rw [List.takeWhile_cons, if_pos (by simp [hc])]
  rw [htw, if_neg (by simp)] at h
  exact absurd h (by simp)

theorem firstMatch_none_parts (h : firstMatch cs = none) :
    eolMatch cs = none ∧ bareMatch cs = none ∧ spaceMatch cs = none := by
  unfold firstMatch at h
  split at h
  · exact absurd h (by simp)
  next =>
    split at h
    · exact absurd h (by simp)
    next =>
      split at h
      · exact absurd h (by simp)
      next =>
        split at h
        · exact absurd h (by simp)
        next h4 =>
          split at h
          · exact absurd h (by simp)
          next =>
            split at h
            · exact absurd h (by simp)
            next h6 =>
              split at h
              · exact absurd h (by simp)
              next h7 => exact ⟨h4, h6, h7⟩

/-- When no pattern matches a nonempty remainder, its first character is
a tab, a vertical tab or a form feed. -/
theorem firstMatch_none_head (c : Char) (t : List Char)
    (h : firstMatch (c :: t) = none) : c = '\t' ∨ c = '\x0b' ∨ c = '\x0c' := by
  obtain ⟨h4, h6, h7⟩ := firstMatch_none_parts h
  have hsp : isPySpace c = true := bareMatch_none_head c t h6
  have heol : isEolChar c = false := eolMatch_none_head c t h4
  have hns : c ≠ ' ' := spaceMatch_none_head c t h7
  unfold isPySpace at hsp
  unfold isEolChar at heol
  simp only [Bool.or_eq_true, decide_eq_true_eq] at hsp
  simp only [Bool.or_eq_false_iff, decide_eq_false_iff_not] at heol
  tauto

/-- Conversely, a remainder headed by a tab, a vertical tab or a form
feed matches no pattern. -/
theorem firstMatch_bad_head (c : Char) (t : List Char)
    (hbad : c = '\t' ∨ c = '\x0b' ∨ c = '\x0c') :
    firstMatch (c :: t) = none := by
  have hu : isUpper c = false := by rcases hbad with rfl | rfl | rfl <;> decide
  have hd : isDigit c = false := by rcases hbad with rfl | rfl | rfl <;> decide
  have heol : isEolChar c = false := by rcases hbad with rfl | rfl | rfl <;> decide
  have hq : c ≠ '"' := by rcases hbad with rfl | rfl | rfl <;> decide
  have hsp : isPySpace c = true := by rcases hbad with rfl | rfl | rfl <;> decide
  have hspace : c ≠ ' ' := by rcases hbad with rfl | rfl | rfl <;> decide
  unfold firstMatch
  rw [isrcMatch_none_of_head c t hu, timestampMatch_none_of_head c t hd,
    numberMatch_none_of_head c t hd, eolMatch_none_of_head c t heol,
    quotedMatch_none_of_head c t hq, bareMatch_none_of_head c t hsp,
    spaceMatch_none_of_head c t hspace]

/-- The scanning loop's final remainder is a suffix of the buffer on
which no pattern matches. -/
theorem scanLoopF_rem : ∀ fuel cs ln ts rem,
    scanLoopF fuel cs ln = some (ts, rem) →
    (∃ pre, pre ++ rem = cs) ∧ firstMatch rem = none := by
  intro fuel
  induction fuel with
  | zero => intro cs ln ts rem h; simp [scanLoopF] at h
  | succ n ih =>
    intro cs ln ts rem h
    simp only [scanLoopF] at h
    cases hm : firstMatch cs with
    | none =>
      rw [hm] at h
      simp only [Option.some.injEq, Prod.mk.injEq] at h
      rw [← h.2]
      exact ⟨⟨[], by simp⟩, hm⟩
    | some egr =>
      obtain ⟨el, g, rest⟩ := egr
      rw [hm] at h
      dsimp only at h
      cases hs : scanLoopF n rest (emit el g ln).2 with
      | none => rw [hs] at h; exact absurd h (by simp)
      | some tsrem =>
        obtain ⟨ts0, rem0⟩ := tsrem
        rw [hs] at h
        simp only [Option.some.injEq, Prod.mk.injEq] at h
        obtain ⟨⟨pre, hpre⟩, hnone⟩ := ih rest (emit el g ln).2 ts0 rem0 hs
        obtain ⟨hga, _⟩ := firstMatch_eq hm
        rw [← h.2]
        refine ⟨⟨g ++ pre, ?_⟩, hnone⟩
        rw [List.append_assoc, hpre, hga]

theorem dropWhile_is_suffix (p : Char → Bool) : ∀ l : List Char,
    ∃ pre, pre ++ l.dropWhile p = l := by
  intro l
  induction l with
  | nil => exact ⟨[], rfl⟩
  | cons c t ih =>
    rw [List.dropWhile_cons]
    by_cases h : p c
    · rw [if_pos h]
      obtain ⟨pre, hpre⟩ := ih
      exact ⟨c :: pre, by rw [List.cons_append, hpre]⟩
    · rw [if_neg h]
      exact ⟨[], rfl⟩

/-! ### Single-directive steps of the parser -/

theorem get_value_cons_ok (t : Token) (rest : List Token) (accept : Nat) (err : ErrKind)
    (h : t.kind.land accept ≠ 0) :
    get_value (t :: rest) accept err = .ok t.value rest := by
  show (if t.kind.land accept ≠ 0 then GV.ok t.value rest
    else GV.fail (.valueErr err t.line)) = GV.ok t.value rest
  rw [if_pos h]

/-- The INDEX branch on a complete INDEX line: the index number and the
frame count are pulled, and SheetIndex(number, Fraction(frames, 75)) is
appended to the open track's index list. -/
theorem handleIndex_step (st : PState) (n : TokValue) (f : Nat) (l2 l3 l4 : Nat)
    (ev : TokValue) (rest : List Token) :
    handleIndex (⟨n, NUMBER, l2⟩ :: ⟨.int f, TIMESTAMP, l3⟩ :: ⟨ev, EOL, l4⟩ :: rest) st =
      .next { st with track_indexes := st.track_indexes ++ [⟨n, mkRat f 75⟩] } rest := by
  have h1 : (Token.mk n NUMBER l2).kind.land NUMBER ≠ 0 := by
    show Nat.land NUMBER NUMBER ≠ 0
    decide
  have h2 : (Token.mk (.int f) TIMESTAMP l3).kind.land TIMESTAMP ≠ 0 := by
    show Nat.land TIMESTAMP TIMESTAMP ≠ 0
    decide
  have h3 : (Token.mk ev EOL l4).kind.land EOL ≠ 0 := by
    show Nat.land EOL EOL ≠ 0
    decide
  unfold handleIndex
  rw [get_value_cons_ok _ _ _ _ h1]
  dsimp only
  rw [get_value_cons_ok _ _ _ _ h2]
  dsimp only
  rw [get_value_cons_ok _ _ _ _ h3]
  rfl

/-- Dispatching an INDEX tag while a track is open reaches the INDEX
branch. -/
theorem handleTag_index (st : PState) (tn : TokValue) (hst : st.track_number = some tn)
    (n : TokValue) (f : Nat) (ln l2 l3 l4 : Nat) (ev : TokValue) (rest : List Token) :
    handleTag ⟨.str kwINDEX, TAG, ln⟩
      (⟨n, NUMBER, l2⟩ :: ⟨.int f, TIMESTAMP, l3⟩ :: ⟨ev, EOL, l4⟩ :: rest) st =
      .next { st with track_indexes := st.track_indexes ++ [⟨n, mkRat f 75⟩] } rest := by
  have hA : (TokValue.str kwINDEX) ≠ TokValue.str kwREM := by decide
  have hB : (TokValue.str kwINDEX) ≠ TokValue.str kwTRACK := by decide
  have hC : (TokValue.str kwINDEX) ≠ TokValue.str kwISRC := by decide
  have hD : ¬ ((TokValue.str kwINDEX) = TokValue.str kwPERFORMER ∨
      (TokValue.str kwINDEX) = TokValue.str kwSONGWRITER ∨
      (TokValue.str kwINDEX) = TokValue.str kwTITLE) := by decide
  have hE : (TokValue.str kwINDEX) ≠ TokValue.str kwFLAGS := by decide
  have hF : ¬ ((TokValue.str kwINDEX) = TokValue.str kwPOSTGAP ∨
      (TokValue.str kwINDEX) = TokValue.str kwPREGAP) := by decide
  unfold handleTag
  rw [if_neg hA, if_neg hB, hst]
  dsimp only
  rw [if_neg hC, if_neg hD, if_neg hE, if_neg hF, if_pos rfl]
  rw [handleIndex_step st n f l2 l3 l4 ev rest, hst]

/-- The FLAGS loop consumes STRING/TAG flag values (none containing an
end-of-line character) up to and including the EOL token, discarding all
of them. -/
theorem flagsLoop_consume : ∀ (fts : List Token),
    (∀ t ∈ fts, (t.kind = STRING ∨ t.kind = TAG) ∧ noEolChars t.value = true) →
    ∀ (eolt : Token), eolt.kind = EOL → noEolChars eolt.value = false →
    ∀ (rest : List Token), flagsLoop (fts ++ eolt :: rest) = .ok () rest := by
  intro fts
  induction fts with
  | nil =>
    intro _ eolt he hv rest
    simp only [List.nil_append, flagsLoop]
    rw [if_pos (by rw [he]; decide), if_neg (by simp [hv])]
  | cons t fts ih =>
    intro hf eolt he hv rest
    obtain ⟨hk, hn⟩ := hf t (by simp)
    simp only [List.cons_append, flagsLoop]
    have hacc : t.kind.land (STRING.lor (TAG.lor EOL)) ≠ 0 := by
      rcases hk with h | h <;> rw [h] <;> decide
    rw [if_pos hacc, if_pos hn]
    exact ih (fun x hx => hf x (by simp [hx])) eolt he hv rest

/-- Dispatching a FLAGS tag while a track is open consumes the whole
FLAGS line and leaves the parser state unchanged. -/
theorem handleTag_flags (st : PState) (tn : TokValue) (hst : st.track_number = some tn)
    (ln : Nat) (fts : List Token)
    (hf : ∀ t ∈ fts, (t.kind = STRING ∨ t.kind = TAG) ∧ noEolChars t.value = true)
    (eolt : Token) (he : eolt.kind = EOL) (hv : noEolChars eolt.value = false)
    (rest : List Token) :
    handleTag ⟨.str kwFLAGS, TAG, ln⟩ (fts ++ eolt :: rest) st = .next st rest := by
  have hA : (TokValue.str kwFLAGS) ≠ TokValue.str kwREM := by decide
  have hB : (TokValue.str kwFLAGS) ≠ TokValue.str kwTRACK := by decide
  have hC : (TokValue.str kwFLAGS) ≠ TokValue.str kwISRC := by decide
  have hD : ¬ ((TokValue.str kwFLAGS) = TokValue.str kwPERFORMER ∨
      (TokValue.str kwFLAGS) = TokValue.str kwSONGWRITER ∨
      (TokValue.str kwFLAGS) = TokValue.str kwTITLE) := by decide
  unfold handleTag
  rw [if_neg hA, if_neg hB, hst]
  dsimp only
  rw [if_neg hC, if_neg hD, if_pos rfl]
  rw [flagsLoop_consume fts hf eolt he hv rest]

/-! ### Well-formed pre-track directives

To state the catalog claim, the region before the first TRACK directive is
described by a list of abstract directives, each rendered to the token
sequence the lexer would deliver for its line. -/

/-- The four pre-track attribute directives other than CATALOG. -/
inductive PreAttr where
  | cdtextfile
  | performer
  | songwriter
  | title
deriving DecidableEq, Repr

def PreAttr.kw : PreAttr → List Char
  | .cdtextfile => kwCDTEXTFILE
  | .performer => kwPERFORMER
  | .songwriter => kwSONGWRITER
  | .title => kwTITLE

/-- One pre-track directive line. -/
inductive PreDir where
  | catalog (v : TokValue) (ln : Nat)
  | attr (a : PreAttr) (v : TokValue) (ln : Nat)
  | file (name ftype : TokValue) (ln : Nat)
  | rem (body : List Token) (ln : Nat)
deriving DecidableEq, Repr

def eolTok (ln : Nat) : Token := ⟨.str ['\n'], EOL, ln⟩

/-- The token sequence of one directive line. -/
def renderDir : PreDir → List Token
  | .catalog v ln => [⟨.str kwCATALOG, TAG, ln⟩, ⟨v, STRING, ln⟩, eolTok ln]
  | .attr a v ln => [⟨.str a.kw, TAG, ln⟩, ⟨v, STRING, ln⟩, eolTok ln]
  | .file nm ft ln =>
    [⟨.str kwFILE, TAG, ln⟩, ⟨nm, STRING, ln⟩, ⟨ft, STRING, ln⟩, eolTok ln]
  | .rem body ln => ⟨.str kwREM, TAG, ln⟩ :: (body ++ [eolTok ln])

def renderPre : List PreDir → List Token
  | [] => []
  | d :: ds => renderDir d ++ renderPre ds

/-- A REM body must not contain an EOL-kind token (the comment runs to
the end of its line). -/
def WFPreDir : PreDir → Prop
  | .rem body _ => ∀ t ∈ body, t.kind ≠ EOL
  | _ => True

/-- The effect of one pre-track directive on the parser state: only
CATALOG stores anything (its value overwrites the previous catalog). -/
def applyDir (st : PState) : PreDir → PState
  | .catalog v _ => { st with cuesheet_catalog_number := some v }
  | _ => st

/-- The value of the last CATALOG directive of the list, if any. -/
def lastCatalog : List PreDir → Option TokValue
  | [] => none
  | d :: ds =>
    match lastCatalog ds with
    | some v => some v
    | none =>
      match d with
      | .catalog v _ => some v
      | _ => none

theorem skip_to_eol_append : ∀ (body : List Token), (∀ t ∈ body, t.kind ≠ EOL) →
    ∀ (eolt : Token), eolt.kind = EOL → ∀ rest,
    skip_to_eol (body ++ eolt :: rest) = some rest := by
  intro body
  induction body with
  | nil =>
    intro _ eolt he rest
    simp only [List.nil_append, skip_to_eol]
    rw [if_pos he]
  | cons t body ih =>
    intro hb eolt he rest
    simp only [List.cons_append, skip_to_eol]
    rw [if_neg (hb t (by simp))]
    exact ih (fun x hx => hb x (by simp [hx])) eolt he rest

theorem handleTag_rem (st : PState) (ln : Nat) (body : List Token)
    (hb : ∀ t ∈ body, t.kind ≠ EOL) (eolt : Token) (he : eolt.kind = EOL)
    (rest : List Token) :
    handleTag ⟨.str kwREM, TAG, ln⟩ (body ++ eolt :: rest) st = .next st rest := by
  unfold handleTag
  rw [if_pos rfl, skip_to_eol_append body hb eolt he rest]

theorem handleTag_catalog (st : PState) (hst : st.track_number = none)
    (v : TokValue) (ln l2 l3 : Nat) (ev : TokValue) (rest : List Token) :
    handleTag ⟨.str kwCATALOG, TAG, ln⟩ (⟨v, STRING, l2⟩ :: ⟨ev, EOL, l3⟩ :: rest) st =
      .next { st with cuesheet_catalog_number := some v } rest := by
  have hv : (Token.mk v STRING l2).kind.land STRING ≠ 0 := by
    show Nat.land STRING STRING ≠ 0
    decide
  have hev : (Token.mk ev EOL l3).kind.land EOL ≠ 0 := by
    show Nat.land EOL EOL ≠ 0
    decide
  have hA : (TokValue.str kwCATALOG) ≠ TokValue.str kwREM := by decide
  have hB : (TokValue.str kwCATALOG) ≠ TokValue.str kwTRACK := by decide
  unfold handleTag
  rw [if_neg hA, if_neg hB, hst]
  dsimp only
  rw [if_pos rfl]
  unfold handlePreAttr
  rw [if_pos rfl]
  rw [get_value_cons_ok _ _ _ _ hv]
  dsimp only
  rw [get_value_cons_ok _ _ _ _ hev]
  dsimp only
  rw [hst]

theorem handleTag_preAttr (st : PState) (hst : st.track_number = none)
    (a : PreAttr) (v : TokValue) (ln l2 l3 : Nat) (ev : TokValue) (rest : List Token) :
    handleTag ⟨.str a.kw, TAG, ln⟩ (⟨v, STRING, l2⟩ :: ⟨ev, EOL, l3⟩ :: rest) st =
      .next st rest := by
  have hv : (Token.mk v STRING l2).kind.land
      (STRING.lor (TAG.lor (NUMBER.lor ISRC))) ≠ 0 := by
    show Nat.land STRING (STRING.lor (TAG.lor (NUMBER.lor ISRC))) ≠ 0
    decide
  have hev : (Token.mk ev EOL l3).kind.land EOL ≠ 0 := by
    show Nat.land EOL EOL ≠ 0
    decide
  have hA : (TokValue.str a.kw) ≠ TokValue.str kwREM := by cases a <;> decide
  have hB : (TokValue.str a.kw) ≠ TokValue.str kwTRACK := by cases a <;> decide
  have hC : (TokValue.str a.kw) ≠ TokValue.str kwCATALOG := by cases a <;> decide
  have hD : (TokValue.str a.kw) = TokValue.str kwCDTEXTFILE ∨
      (TokValue.str a.kw) = TokValue.str kwPERFORMER ∨
      (TokValue.str a.kw) = TokValue.str kwSONGWRITER ∨
      (TokValue.str a.kw) = TokValue.str kwTITLE := by cases a <;> decide
  unfold handleTag
  rw [if_neg hA, if_neg hB, hst]
  dsimp only
  rw [if_neg hC, if_pos hD]
  unfold handlePreAttr
  rw [if_neg (by simp)]
  rw [get_value_cons_ok _ _ _ _ hv]
  dsimp only
  rw [get_value_cons_ok _ _ _ _ hev]

theorem handleTag_file (st : PState) (hst : st.track_number = none)
    (nm ft : TokValue) (ln l2 l3 l4 : Nat) (ev : TokValue) (rest : List Token) :
    handleTag ⟨.str kwFILE, TAG, ln⟩
      (⟨nm, STRING, l2⟩ :: ⟨ft, STRING, l3⟩ :: ⟨ev, EOL, l4⟩ :: rest) st =
      .next st rest := by
  have h1 : (Token.mk nm STRING l2).kind.land STRING ≠ 0 := by
    show Nat.land STRING STRING ≠ 0
    decide
  have h2 : (Token.mk ft STRING l3).kind.land (STRING.lor TAG) ≠ 0 := by
    show Nat.land STRING (STRING.lor TAG) ≠ 0
    decide
  have h3 : (Token.mk ev EOL l4).kind.land EOL ≠ 0 := by
    show Nat.land EOL EOL ≠ 0
    decide
  have hA : (TokValue.str kwFILE) ≠ TokValue.str kwREM := by decide
  have hB : (TokValue.str kwFILE) ≠ TokValue.str kwTRACK := by decide
  have hC : (TokValue.str kwFILE) ≠ TokValue.str kwCATALOG := by decide
  have hD : ¬ ((TokValue.str kwFILE) = TokValue.str kwCDTEXTFILE ∨
      (TokValue.str kwFILE) = TokValue.str kwPERFORMER ∨
      (TokValue.str kwFILE) = TokValue.str kwSONGWRITER ∨
      (TokValue.str kwFILE) = TokValue.str kwTITLE) := by decide
  unfold handleTag
  rw [if_neg hA, if_neg hB, hst]
  dsimp only
  rw [if_neg hC, if_neg hD, if_pos rfl]
  unfold handleFile
  rw [get_value_cons_ok _ _ _ _ h1]
  dsimp only
  rw [get_value_cons_ok _ _ _ _ h2]
  dsimp only
  rw [get_value_cons_ok _ _ _ _ h3]

/-- One pre-track directive line advances the parser by exactly its
rendered tokens and applies exactly its attribute effect. -/
theorem parseFrom_dir (st : PState) (hst : st.track_number = none) (d : PreDir)
    (hwf : WFPreDir d) (rest : List Token) :
    parseFrom (renderDir d ++ rest) st = parseFrom rest (applyDir st d) := by
  cases d with
  | catalog v ln =>
    exact parseFrom_next rfl (handleTag_catalog st hst v ln ln ln (.str ['\n']) rest)
  | attr a v ln =>
    exact parseFrom_next rfl (handleTag_preAttr st hst a v ln ln ln (.str ['\n']) rest)
  | file nm ft ln =>
    exact parseFrom_next rfl (handleTag_file st hst nm ft ln ln ln ln (.str ['\n']) rest)
  | rem body ln =>
    have hshape : renderDir (.rem body ln) ++ rest =
        ⟨.str kwREM, TAG, ln⟩ :: (body ++ eolTok ln :: rest) := by
      simp [renderDir, List.append_assoc]
    rw [hshape]
    exact parseFrom_next rfl (handleTag_rem st ln body hwf (eolTok ln) rfl rest)

/-- Processing the whole pre-track region folds the directive effects
over the state. -/
theorem parseFrom_preRun : ∀ (ds : List PreDir), (∀ d ∈ ds, WFPreDir d) →
    ∀ (st : PState), st.track_number = none → ∀ rest,
    parseFrom (renderPre ds ++ rest) st = parseFrom rest (ds.foldl applyDir st) := by
  intro ds
  induction ds with
  | nil => intro _ st _ rest; rfl
  | cons d ds ih =>
    intro hwf st hst rest
    have h1 : renderPre (d :: ds) ++ rest = renderDir d ++ (renderPre ds ++ rest) := by
      simp [renderPre, List.append_assoc]
    rw [h1, parseFrom_dir st hst d (hwf d (by simp)) _]
    have hst2 : (applyDir st d).track_number = none := by
      cases d <;> simp [applyDir, hst]
    exact ih (fun x hx => hwf x (by simp [hx])) (applyDir st d) hst2 rest

theorem foldl_applyDir_catalog : ∀ (ds : List PreDir) (st : PState),
    (ds.foldl applyDir st).cuesheet_catalog_number =
      (match lastCatalog ds with
       | some v => some v
       | none => st.cuesheet_catalog_number) := by
  intro ds
  induction ds with
  | nil => intro st; rfl
  | cons d ds ih =>
    intro st
    show (ds.foldl applyDir (applyDir st d)).cuesheet_catalog_number = _
    rw [ih (applyDir st d)]
    cases hlc : lastCatalog ds with
    | some v => simp [lastCatalog, hlc]
    | none =>
      cases d with
      | catalog v ln => simp [lastCatalog, hlc, applyDir]
      | attr a v ln => simp [lastCatalog, hlc, applyDir]
      | file nm ft ln => simp [lastCatalog, hlc, applyDir]
      | rem body ln => simp [lastCatalog, hlc, applyDir]

theorem foldl_applyDir_track : ∀ (ds : List PreDir) (st : PState),
    (ds.foldl applyDir st).track_number = st.track_number := by
  intro ds
  induction ds with
  | nil => intro st; rfl
  | cons d ds ih =>
    intro st
    show (ds.foldl applyDir (applyDir st d)).track_number = _
    rw [ih (applyDir st d)]
    cases d <;> rfl

/-! ### Catalog stability once a track is open -/

/-- A handler outcome that preserves both the catalog number and the
track number. -/
def KeepsCT (st : PState) : HRes → Prop
  | .stop st1 => st1.cuesheet_catalog_number = st.cuesheet_catalog_number ∧
      st1.track_number = st.track_number
  | .fail _ => True
  | .next st1 _ => st1.cuesheet_catalog_number = st.cuesheet_catalog_number ∧
      st1.track_number = st.track_number

/-- A handler outcome that preserves the catalog number and keeps the
track open (or leaves the track number untouched on a stop). -/
def KeepsCatalog (st : PState) : HRes → Prop
  | .stop st1 => st1.cuesheet_catalog_number = st.cuesheet_catalog_number ∧
      (st1.track_number = st.track_number ∨ st1.track_number.isSome = true)
  | .fail _ => True
  | .next st1 _ => st1.cuesheet_catalog_number = st.cuesheet_catalog_number ∧
      st1.track_number.isSome = true

theorem keepsCT_to_catalog (st : PState) (res : HRes)
    (hsome : st.track_number.isSome = true) (h : KeepsCT st res) :
    KeepsCatalog st res := by
  cases res with
  | stop st1 => exact ⟨h.1, Or.inl h.2⟩
  | fail e => trivial
  | next st1 r => exact ⟨h.1, by rw [h.2]; exact hsome⟩

theorem handleTrackAttr_keeps (b : Bool) (toks : List Token) (st : PState) :
    KeepsCT st (handleTrackAttr b toks st) := by
  unfold handleTrackAttr
  split
  · split
    · exact ⟨rfl, rfl⟩
    · trivial
    · split
      · exact ⟨rfl, rfl⟩
      · trivial
      · exact ⟨rfl, rfl⟩
  · split
    · exact ⟨rfl, rfl⟩
    · trivial
    · split
      · exact ⟨rfl, rfl⟩
      · trivial
      · exact ⟨rfl, rfl⟩

theorem handleGap_keeps (toks : List Token) (st : PState) :
    KeepsCT st (handleGap toks st) := by
  unfold handleGap
  split
  · exact ⟨rfl, rfl⟩
  · trivial
  · split
    · exact ⟨rfl, rfl⟩
    · trivial
    · exact ⟨rfl, rfl⟩

theorem handleIndex_keeps (toks : List Token) (st : PState) :
    KeepsCT st (handleIndex toks st) := by
  unfold handleIndex
  split
  · exact ⟨rfl, rfl⟩
  · trivial
  · split
    · exact ⟨rfl, rfl⟩
    · trivial
    · split
      · exact ⟨rfl, rfl⟩
      · trivial
      · exact ⟨rfl, rfl⟩

theorem handleTrack_keeps (toks : List Token) (st : PState) :
    KeepsCatalog st (handleTrack toks st) := by
  unfold handleTrack
  split
  · exact ⟨rfl, Or.inl rfl⟩
  · trivial
  · split
    · exact ⟨rfl, Or.inr rfl⟩
    · trivial
    · split
      · exact ⟨rfl, Or.inr rfl⟩
      · trivial
      · exact ⟨rfl, rfl⟩

/-- Every directive handled while a track is open leaves the catalog
number unchanged and the track open. -/
theorem handleTag_keeps (t : Token) (rest : List Token) (st : PState)
    (hsome : st.track_number.isSome = true) :
    KeepsCatalog st (handleTag t rest st) := by
  obtain ⟨tn, hst⟩ := Option.isSome_iff_exists.mp hsome
  unfold handleTag
  split
  · split
    · exact ⟨rfl, Or.inl rfl⟩
    · exact ⟨rfl, hsome⟩
  · split
    · exact handleTrack_keeps rest st
    · rw [hst]
      dsimp only
      split
      · exact keepsCT_to_catalog st _ hsome (handleTrackAttr_keeps true rest st)
      · split
        · exact keepsCT_to_catalog st _ hsome (handleTrackAttr_keeps false rest st)
        · split
          · split
            · exact ⟨rfl, Or.inl rfl⟩
            · trivial
            · exact ⟨rfl, hsome⟩
          · split
            · exact keepsCT_to_catalog st _ hsome (handleGap_keeps rest st)
            · split
              · exact keepsCT_to_catalog st _ hsome (handleIndex_keeps rest st)
              · split
                · split
                  · exact ⟨rfl, Or.inl rfl⟩
                  · exact ⟨rfl, hsome⟩
                · trivial

/-- Once a track is open, nothing the parser does until the end of the
stream changes the catalog number: a successful parse returns it
unchanged. -/
theorem parseLoopF_catalog_stable : ∀ fuel toks st sheet,
    st.track_number.isSome = true →
    parseLoopF fuel toks st = some (.ok sheet) →
    sheet.catalog = st.cuesheet_catalog_number := by
  intro fuel
  induction fuel with
  | zero => intro toks st sheet _ h; simp [parseLoopF] at h
  | succ n ih =>
    intro toks st sheet hsome h
    cases toks with
    | nil =>
      simp only [parseLoopF, Option.some.injEq, Except.ok.injEq] at h
      rw [← h]
      rfl
    | cons t rest =>
      simp only [parseLoopF] at h
      by_cases hk : t.kind = TAG
      · rw [if_pos hk] at h
        have hkeep := handleTag_keeps t rest st hsome
        cases hh : handleTag t rest st with
        | stop st1 =>
          rw [hh] at h
          rw [hh] at hkeep
          simp only [Option.some.injEq, Except.ok.injEq] at h
          rw [← h]
          show st1.cuesheet_catalog_number = _
          exact hkeep.1
        | fail e =>
          rw [hh] at h
          exact absurd h (by simp)
        | next st1 r =>
          rw [hh] at h
          rw [hh] at hkeep
          dsimp only at h
          rw [ih r st1 sheet hkeep.2 h]
          exact hkeep.1
      · rw [if_neg hk] at h
        exact absurd h (by simp)

/-! ### Truncation simulation: a parse of a prefix of the stream -/

theorem get_value_stop_nil (h : get_value toks accept err = .stop) : toks = [] := by
  cases toks with
  | nil => rfl
  | cons t r =>
    simp only [get_value] at h
    split at h <;> exact absurd h (by simp)

theorem get_value_take_ok (h : get_value toks accept err = .ok v rest) (k : Nat) :
    get_value (toks.take (k + 1)) accept err = .ok v (rest.take k) := by
  cases toks with
  | nil => simp [get_value] at h
  | cons t r =>
    rw [List.take_succ_cons]
    simp only [get_value] at h ⊢
    split at h
    · simp only [GV.ok.injEq] at h
      rw [if_pos (by assumption), h.1, h.2]
    · exact absurd h (by simp)

theorem skip_to_eol_take_none : ∀ toks, skip_to_eol toks = none →
    ∀ m, skip_to_eol (toks.take m) = none := by
  intro toks
  induction toks with
  | nil => intro _ m; rw [List.take_nil]; rfl
  | cons t rest ih =>
    intro h m
    simp only [skip_to_eol] at h
    by_cases he : t.kind = EOL
    · rw [if_pos he] at h
      exact absurd h (by simp)
    · rw [if_neg he] at h
      cases m with
      | zero => rfl
      | succ k =>
        rw [List.take_succ_cons]
        simp only [skip_to_eol, if_neg he]
        exact ih h k

theorem skip_to_eol_take_some : ∀ toks r, skip_to_eol toks = some r → ∀ m,
    skip_to_eol (toks.take m) = none ∨
    ∃ k, skip_to_eol (toks.take m) = some (r.take k) := by
  intro toks
  induction toks with
  | nil => intro r h; simp [skip_to_eol] at h
  | cons t rest ih =>
    intro r h m
    simp only [skip_to_eol] at h
    by_cases he : t.kind = EOL
    · rw [if_pos he] at h
      simp only [Option.some.injEq] at h
      cases m with
      | zero => exact Or.inl rfl
      | succ k =>
        rw [List.take_succ_cons]
        refine Or.inr ⟨k, ?_⟩
        simp only [skip_to_eol, if_pos he, h]
    · rw [if_neg he] at h
      cases m with
      | zero => exact Or.inl rfl
      | succ k =>
        rw [List.take_succ_cons]
        simp only [skip_to_eol, if_neg he]
        exact ih r h k

theorem flagsLoop_take_stop : ∀ toks, flagsLoop toks = .stop →
    ∀ m, flagsLoop (toks.take m) = .stop := by
  intro toks
  induction toks with
  | nil => intro _ m; rw [List.take_nil]; rfl
  | cons t rest ih =>
    intro h m
    simp only [flagsLoop] at h
    by_cases hc : t.kind.land (STRING.lor (TAG.lor EOL)) ≠ 0
    · rw [if_pos hc] at h
      by_cases hn : noEolChars t.value
      · rw [if_pos hn] at h
        cases m with
        | zero => rfl
        | succ k =>
          rw [List.take_succ_cons]
          simp only [flagsLoop]
          rw [if_pos hc, if_pos hn]
          exact ih h k
      · rw [if_neg hn] at h
        exact absurd h (by simp)
    · rw [if_neg hc] at h
      exact absurd h (by simp)

theorem flagsLoop_take_ok : ∀ toks r, flagsLoop toks = .ok () r → ∀ m,
    flagsLoop (toks.take m) = .stop ∨
    ∃ k, flagsLoop (toks.take m) = .ok () (r.take k) := by
  intro toks
  induction toks with
  | nil => intro r h; simp [flagsLoop] at h
  | cons t rest ih =>
    intro r h m
    simp only [flagsLoop] at h
    by_cases hc : t.kind.land (STRING.lor (TAG.lor EOL)) ≠ 0
    · rw [if_pos hc] at h
      by_cases hn : noEolChars t.value
      · rw [if_pos hn] at h
        cases m with
        | zero => exact Or.inl rfl
        | succ k =>
          rw [List.take_succ_cons]
          simp only [flagsLoop]
          rw [if_pos hc, if_pos hn]
          exact ih r h k
      · rw [if_neg hn] at h
        simp only [GV.ok.injEq] at h
        cases m with
        | zero => exact Or.inl rfl
        | succ k =>
          rw [List.take_succ_cons]
          refine Or.inr ⟨k, ?_⟩
          simp only [flagsLoop]
          rw [if_pos hc, if_neg hn, h.2]
    · rw [if_neg hc] at h
      exact absurd h (by simp)

/-- The truncated run of a handler relative to the full run: either the
shortened stream exhausts inside the handler (StopIteration, some state),
or the handler completes exactly as in the full run, leaving the same
state and a truncation of the full run's remaining stream. -/
def TakeOk (full tr : HRes) : Prop :=
  (∃ st2, tr = .stop st2) ∨
  (∃ st1 r k, full = .next st1 r ∧ tr = .next st1 (r.take k))

theorem handleGap_take (toks : List Token) (st : PState) (m : Nat)
    (hnf : ∀ e, handleGap toks st ≠ .fail e) :
    TakeOk (handleGap toks st) (handleGap (toks.take m) st) := by
  cases hg1 : get_value toks TIMESTAMP .invalidTimestamp with
  | stop =>
    rw [get_value_stop_nil hg1, List.take_nil]
    exact Or.inl ⟨st, rfl⟩
  | fail e =>
    exfalso
    apply hnf e
    unfold handleGap
    rw [hg1]
  | ok v r1 =>
    cases m with
    | zero => exact Or.inl ⟨st, rfl⟩
    | succ k =>
      have hg1' := get_value_take_ok hg1 k
      cases hg2 : get_value r1 EOL .excessData with
      | stop =>
        have hr1 := get_value_stop_nil hg2
        subst hr1
        rw [List.take_nil] at hg1'
        refine Or.inl ⟨st, ?_⟩
        unfold handleGap
        rw [hg1']
        rfl
      | fail e =>
        exfalso
        apply hnf e
        unfold handleGap
        rw [hg1]
        dsimp only
        rw [hg2]
      | ok u r2 =>
        cases k with
        | zero =>
          refine Or.inl ⟨st, ?_⟩
          unfold handleGap
          rw [hg1']
          rfl
        | succ k2 =>
          have hg2' := get_value_take_ok hg2 k2
          refine Or.inr ⟨st, r2, k2, ?_, ?_⟩
          · unfold handleGap
            rw [hg1]
            dsimp only
            rw [hg2]
          · unfold handleGap
            rw [hg1']
            dsimp only
            rw [hg2']

theorem handleIndex_take (toks : List Token) (st : PState) (m : Nat)
    (hnf : ∀ e, handleIndex toks st ≠ .fail e) :
    TakeOk (handleIndex toks st) (handleIndex (toks.take m) st) := by
  cases hg1 : get_value toks NUMBER .invalidIndexNumber with
  | stop =>
    rw [get_value_stop_nil hg1, List.take_nil]
    exact Or.inl ⟨_, rfl⟩
  | fail e =>
    exfalso
    apply hnf e
    unfold handleIndex
    rw [hg1]
  | ok inum r1 =>
    cases m with
    | zero => exact Or.inl ⟨_, rfl⟩
    | succ k =>
      have hg1' := get_value_take_ok hg1 k
      cases hg2 : get_value r1 TIMESTAMP .invalidTimestamp with
      | stop =>
        have hr1 := get_value_stop_nil hg2
        subst hr1
        rw [List.take_nil] at hg1'
        refine Or.inl ⟨st, ?_⟩
        unfold handleIndex
        rw [hg1']
        rfl
      | fail e =>
        exfalso
        apply hnf e
        unfold handleIndex
        rw [hg1]
        dsimp only
        rw [hg2]
      | ok ioff r2 =>
        cases k with
        | zero =>
          refine Or.inl ⟨st, ?_⟩
          unfold handleIndex
          rw [hg1']
          rfl
        | succ k2 =>
          have hg2' := get_value_take_ok hg2 k2
          cases hg3 : get_value r2 EOL .excessData with
          | stop =>
            have hr2 := get_value_stop_nil hg3
            subst hr2
            rw [List.take_nil] at hg2'
            refine Or.inl ⟨{ st with
              track_indexes := st.track_indexes ++ [⟨inum, fracOver75 ioff⟩] }, ?_⟩
            unfold handleIndex
            rw [hg1']
            dsimp only
            rw [hg2']
            rfl
          | fail e =>
            exfalso
            apply hnf e
            unfold handleIndex
            rw [hg1]
            dsimp only
            rw [hg2]
            dsimp only
            rw [hg3]
          | ok u r3 =>
            cases k2 with
            | zero =>
              refine Or.inl ⟨{ st with
                track_indexes := st.track_indexes ++ [⟨inum, fracOver75 ioff⟩] }, ?_⟩
              unfold handleIndex
              rw [hg1']
              dsimp only
              rw [hg2']
              rfl
            | succ k3 =>
              have hg3' := get_value_take_ok hg3 k3
              refine Or.inr ⟨{ st with
                track_indexes := st.track_indexes ++ [⟨inum, fracOver75 ioff⟩] },
                r3, k3, ?_, ?_⟩
              · unfold handleIndex
                rw [hg1]
                dsimp only
                rw [hg2]
                dsimp only
                rw [hg3]
              · unfold handleIndex
                rw [hg1']
                dsimp only
                rw [hg2']
                dsimp only
                rw [hg3']

theorem handleFile_take (toks : List Token) (st : PState) (m : Nat)
    (hnf : ∀ e, handleFile toks st ≠ .fail e) :
    TakeOk (handleFile toks st) (handleFile (toks.take m) st) := by
  cases hg1 : get_value toks STRING .missingFilename with
  | stop =>
    rw [get_value_stop_nil hg1, List.take_nil]
    exact Or.inl ⟨_, rfl⟩
  | fail e =>
    exfalso
    apply hnf e
    unfold handleFile
    rw [hg1]
  | ok v r1 =>
    cases m with
    | zero => exact Or.inl ⟨_, rfl⟩
    | succ k =>
      have hg1' := get_value_take_ok hg1 k
      cases hg2 : get_value r1 (STRING.lor TAG) .missingFiletype with
      | stop =>
        have hr1 := get_value_stop_nil hg2
        subst hr1
        rw [List.take_nil] at hg1'
        refine Or.inl ⟨st, ?_⟩
        unfold handleFile
        rw [hg1']
        rfl
      | fail e =>
        exfalso
        apply hnf e
        unfold handleFile
        rw [hg1]
        dsimp only
        rw [hg2]
      | ok w r2 =>
        cases k with
        | zero =>
          refine Or.inl ⟨st, ?_⟩
          unfold handleFile
          rw [hg1']
          rfl
        | succ k2 =>
          have hg2' := get_value_take_ok hg2 k2
          cases hg3 : get_value r2 EOL .excessData with
          | stop =>
            have hr2 := get_value_stop_nil hg3
            subst hr2
            rw [List.take_nil] at hg2'
            refine Or.inl ⟨st, ?_⟩
            unfold handleFile
            rw [hg1']
            dsimp only
            rw [hg2']
            rfl
          | fail e =>
            exfalso
            apply hnf e
            unfold handleFile
            rw [hg1]
            dsimp only
            rw [hg2]
            dsimp only
            rw [hg3]
          | ok u r3 =>
            cases k2 with
            | zero =>
              refine Or.inl ⟨st, ?_⟩
              unfold handleFile
              rw [hg1']
              dsimp only
              rw [hg2']
              rfl
            | succ k3 =>
              have hg3' := get_value_take_ok hg3 k3
              refine Or.inr ⟨st, r3, k3, ?_, ?_⟩
              · unfold handleFile
                rw [hg1]
                dsimp only
                rw [hg2]
                dsimp only
                rw [hg3]
              · unfold handleFile
                rw [hg1']
                dsimp only
                rw [hg2']
                dsimp only
                rw [hg3']

theorem handleTrack_take (toks : List Token) (st : PState) (m : Nat)
    (hnf : ∀ e, handleTrack toks st ≠ .fail e) :
    TakeOk (handleTrack toks st) (handleTrack (toks.take m) st) := by
  cases hg1 : get_value toks NUMBER .invalidTrackNumber with
  | stop =>
    rw [get_value_stop_nil hg1, List.take_nil]
    exact Or.inl ⟨_, rfl⟩
  | fail e =>
    exfalso
    apply hnf e
    unfold handleTrack
    rw [hg1]
  | ok n r1 =>
    cases m with
    | zero => exact Or.inl ⟨_, rfl⟩
    | succ k =>
      have hg1' := get_value_take_ok hg1 k
      cases hg2 : get_value r1 (TAG.lor STRING) .invalidTrackType with
      | stop =>
        have hr1 := get_value_stop_nil hg2
        subst hr1
        rw [List.take_nil] at hg1'
        refine Or.inl ⟨{ st with cuesheet_tracks := flushTracks st, track_number := some n, track_indexes := [] }, ?_⟩
        unfold handleTrack
        rw [hg1']
        rfl
      | fail e =>
        exfalso
        apply hnf e
        unfold handleTrack
        rw [hg1]
        dsimp only
        rw [hg2]
      | ok tv r2 =>
        cases k with
        | zero =>
          refine Or.inl ⟨{ st with cuesheet_tracks := flushTracks st, track_number := some n, track_indexes := [] }, ?_⟩
          unfold handleTrack
          rw [hg1']
          rfl
        | succ k2 =>
          have hg2' := get_value_take_ok hg2 k2
          cases hg3 : get_value r2 EOL .excessData with
          | stop =>
            have hr2 := get_value_stop_nil hg3
            subst hr2
            rw [List.take_nil] at hg2'
            refine Or.inl ⟨{ st with cuesheet_tracks := flushTracks st, track_number := some n, track_indexes := [], track_audio := isAudioValue tv, track_ISRC := none }, ?_⟩
            unfold handleTrack
            rw [hg1']
            dsimp only
            rw [hg2']
            rfl
          | fail e =>
            exfalso
            apply hnf e
            unfold handleTrack
            rw [hg1]
            dsimp only
            rw [hg2]
            dsimp only
            rw [hg3]
          | ok u r3 =>
            cases k2 with
            | zero =>
              refine Or.inl ⟨{ st with cuesheet_tracks := flushTracks st, track_number := some n, track_indexes := [], track_audio := isAudioValue tv, track_ISRC := none }, ?_⟩
              unfold handleTrack
              rw [hg1']
              dsimp only
              rw [hg2']
              rfl
            | succ k3 =>
              have hg3' := get_value_take_ok hg3 k3
              refine Or.inr ⟨{ st with cuesheet_tracks := flushTracks st, track_number := some n, track_indexes := [], track_audio := isAudioValue tv, track_ISRC := none }, r3, k3, ?_, ?_⟩
              · unfold handleTrack
                rw [hg1]
                dsimp only
                rw [hg2]
                dsimp only
                rw [hg3]
              · unfold handleTrack
                rw [hg1']
                dsimp only
                rw [hg2']
                dsimp only
                rw [hg3']

theorem handlePreAttr_take (b : Bool) (toks : List Token) (st : PState) (m : Nat)
    (hnf : ∀ e, handlePreAttr b toks st ≠ .fail e) :
    TakeOk (handlePreAttr b toks st) (handlePreAttr b (toks.take m) st) := by
  cases b with
  | true =>
    cases hg1 : get_value toks STRING .missingValue with
    | stop =>
      rw [get_value_stop_nil hg1, List.take_nil]
      exact Or.inl ⟨st, rfl⟩
    | fail e =>
      exfalso
      apply hnf e
      unfold handlePreAttr
      rw [hg1]
      rfl
    | ok v r1 =>
      cases m with
      | zero => exact Or.inl ⟨st, rfl⟩
      | succ k =>
        have hg1' := get_value_take_ok hg1 k
        cases hg2 : get_value r1 EOL .excessData with
        | stop =>
          have hr1 := get_value_stop_nil hg2
          subst hr1
          rw [List.take_nil] at hg1'
          refine Or.inl ⟨{ st with cuesheet_catalog_number := some v }, ?_⟩
          unfold handlePreAttr
          rw [hg1']
          rfl
        | fail e =>
          exfalso
          apply hnf e
          unfold handlePreAttr
          rw [hg1]
          dsimp only
          rw [hg2]
          rfl
        | ok u r2 =>
          cases k with
          | zero =>
            refine Or.inl ⟨{ st with cuesheet_catalog_number := some v }, ?_⟩
            unfold handlePreAttr
            rw [hg1']
            rfl
          | succ k2 =>
            have hg2' := get_value_take_ok hg2 k2
            refine Or.inr ⟨{ st with cuesheet_catalog_number := some v }, r2, k2, ?_, ?_⟩
            · unfold handlePreAttr
              rw [hg1]
              dsimp only
              rw [hg2]
              rfl
            · unfold handlePreAttr
              rw [hg1']
              dsimp only
              rw [hg2']
              rfl
  | false =>
    cases hg1 : get_value toks (STRING.lor (TAG.lor (NUMBER.lor ISRC))) .missingValue with
    | stop =>
      rw [get_value_stop_nil hg1, List.take_nil]
      exact Or.inl ⟨st, rfl⟩
    | fail e =>
      exfalso
      apply hnf e
      unfold handlePreAttr
      rw [hg1]
      rfl
    | ok v r1 =>
      cases m with
      | zero => exact Or.inl ⟨st, rfl⟩
      | succ k =>
        have hg1' := get_value_take_ok hg1 k
        cases hg2 : get_value r1 EOL .excessData with
        | stop =>
          have hr1 := get_value_stop_nil hg2
          subst hr1
          rw [List.take_nil] at hg1'
          refine Or.inl ⟨st, ?_⟩
          unfold handlePreAttr
          rw [hg1']
          rfl
        | fail e =>
          exfalso
          apply hnf e
          unfold handlePreAttr
          rw [hg1]
          dsimp only
          rw [hg2]
          rfl
        | ok u r2 =>
          cases k with
          | zero =>
            refine Or.inl ⟨st, ?_⟩
            unfold handlePreAttr
            rw [hg1']
            rfl
          | succ k2 =>
            have hg2' := get_value_take_ok hg2 k2
            refine Or.inr ⟨st, r2, k2, ?_, ?_⟩
            · unfold handlePreAttr
              rw [hg1]
              dsimp only
              rw [hg2]
              rfl
            · unfold handlePreAttr
              rw [hg1']
              dsimp only
              rw [hg2']
              rfl

theorem handleTrackAttr_take (b : Bool) (toks : List Token) (st : PState) (m : Nat)
    (hnf : ∀ e, handleTrackAttr b toks st ≠ .fail e) :
    TakeOk (handleTrackAttr b toks st) (handleTrackAttr b (toks.take m) st) := by
  cases b with
  | true =>
    cases hg1 : get_value toks ISRC .missingValue with
    | stop =>
      rw [get_value_stop_nil hg1, List.take_nil]
      exact Or.inl ⟨st, rfl⟩
    | fail e =>
      exfalso
      apply hnf e
      unfold handleTrackAttr
      rw [hg1]
      rfl
    | ok v r1 =>
      cases m with
      | zero => exact Or.inl ⟨st, rfl⟩
      | succ k =>
        have hg1' := get_value_take_ok hg1 k
        cases hg2 : get_value r1 EOL .invalidData with
        | stop =>
          have hr1 := get_value_stop_nil hg2
          subst hr1
          rw [List.take_nil] at hg1'
          refine Or.inl ⟨{ st with track_ISRC := some v }, ?_⟩
          unfold handleTrackAttr
          rw [hg1']
          rfl
        | fail e =>
          exfalso
          apply hnf e
          unfold handleTrackAttr
          rw [hg1]
          dsimp only
          rw [hg2]
          rfl
        | ok u r2 =>
          cases k with
          | zero =>
            refine Or.inl ⟨{ st with track_ISRC := some v }, ?_⟩
            unfold handleTrackAttr
            rw [hg1']
            rfl
          | succ k2 =>
            have hg2' := get_value_take_ok hg2 k2
            refine Or.inr ⟨{ st with track_ISRC := some v }, r2, k2, ?_, ?_⟩
            · unfold handleTrackAttr
              rw [hg1]
              dsimp only
              rw [hg2]
              rfl
            · unfold handleTrackAttr
              rw [hg1']
              dsimp only
              rw [hg2']
              rfl
  | false =>
    cases hg1 : get_value toks (STRING.lor (TAG.lor (NUMBER.lor ISRC))) .missingValue with
    | stop =>
      rw [get_value_stop_nil hg1, List.take_nil]
      exact Or.inl ⟨st, rfl⟩
    | fail e =>
      exfalso
      apply hnf e
      unfold handleTrackAttr
      rw [hg1]
      rfl
    | ok v r1 =>
      cases m with
      | zero => exact Or.inl ⟨st, rfl⟩
      | succ k =>
        have hg1' := get_value_take_ok hg1 k
        cases hg2 : get_value r1 EOL .invalidData with
        | stop =>
          have hr1 := get_value_stop_nil hg2
          subst hr1
          rw [List.take_nil] at hg1'
          refine Or.inl ⟨st, ?_⟩
          unfold handleTrackAttr
          rw [hg1']
          rfl
        | fail e =>
          exfalso
          apply hnf e
          unfold handleTrackAttr
          rw [hg1]
          dsimp only
          rw [hg2]
          rfl
        | ok u r2 =>
          cases k with
          | zero =>
            refine Or.inl ⟨st, ?_⟩
            unfold handleTrackAttr
            rw [hg1']
            rfl
          | succ k2 =>
            have hg2' := get_value_take_ok hg2 k2
            refine Or.inr ⟨st, r2, k2, ?_, ?_⟩
            · unfold handleTrackAttr
              rw [hg1]
              dsimp only
              rw [hg2]
              rfl
            · unfold handleTrackAttr
              rw [hg1']
              dsimp only
              rw [hg2']
              rfl

/-- The dispatch on a TAG token: whatever handler runs, a truncated rest
either stops inside the handler or completes identically with a truncated
remainder. -/
theorem handleTag_take (t : Token) (rest : List Token) (st : PState) (m : Nat)
    (hnf : ∀ e, handleTag t rest st ≠ .fail e) :
    TakeOk (handleTag t rest st) (handleTag t (rest.take m) st) := by
  by_cases h1 : t.value = .str kwREM
  · have hd : ∀ (r : List Token), handleTag t r st =
        match skip_to_eol r with
        | none => .stop st
        | some r2 => .next st r2 := by
      intro r
      unfold handleTag
      rw [if_pos h1]
    rw [hd rest, hd (rest.take m)]
    cases hs : skip_to_eol rest with
    | none =>
      rw [skip_to_eol_take_none rest hs m]
      exact Or.inl ⟨st, rfl⟩
    | some r =>
      rcases skip_to_eol_take_some rest r hs m with h6 | ⟨k, h6⟩
      · rw [h6]
        exact Or.inl ⟨st, rfl⟩
      · rw [h6]
        exact Or.inr ⟨st, r, k, rfl, rfl⟩
  · by_cases h2 : t.value = .str kwTRACK
    · have hd : ∀ (r : List Token), handleTag t r st = handleTrack r st := by
        intro r
        unfold handleTag
        rw [if_neg h1, if_pos h2]
      rw [hd rest, hd (rest.take m)]
      exact handleTrack_take rest st m (fun e he => hnf e ((hd rest).trans he))
    · cases hst : st.track_number with
      | none =>
        by_cases h3 : t.value = .str kwCATALOG
        · have hd : ∀ (r : List Token), handleTag t r st = handlePreAttr true r st := by
            intro r
            unfold handleTag
            rw [if_neg h1, if_neg h2, hst]
            dsimp only
            rw [if_pos h3]
          rw [hd rest, hd (rest.take m)]
          exact handlePreAttr_take true rest st m (fun e he => hnf e ((hd rest).trans he))
        · by_cases h4 : t.value = .str kwCDTEXTFILE ∨ t.value = .str kwPERFORMER ∨
              t.value = .str kwSONGWRITER ∨ t.value = .str kwTITLE
          · have hd : ∀ (r : List Token), handleTag t r st = handlePreAttr false r st := by
              intro r
              unfold handleTag
              rw [if_neg h1, if_neg h2, hst]
              dsimp only
              rw [if_neg h3, if_pos h4]
            rw [hd rest, hd (rest.take m)]
            exact handlePreAttr_take false rest st m (fun e he => hnf e ((hd rest).trans he))
          · by_cases h5 : t.value = .str kwFILE
            · have hd : ∀ (r : List Token), handleTag t r st = handleFile r st := by
                intro r
                unfold handleTag
                rw [if_neg h1, if_neg h2, hst]
                dsimp only
                rw [if_neg h3, if_neg h4, if_pos h5]
              rw [hd rest, hd (rest.take m)]
              exact handleFile_take rest st m (fun e he => hnf e ((hd rest).trans he))
            · exfalso
              apply hnf (.invalidTag t.value t.line)
              unfold handleTag
              rw [if_neg h1, if_neg h2, hst]
              dsimp only
              rw [if_neg h3, if_neg h4, if_neg h5]
      | some tn =>
        by_cases g1 : t.value = .str kwISRC
        · have hd : ∀ (r : List Token), handleTag t r st = handleTrackAttr true r st := by
            intro r
            unfold handleTag
            rw [if_neg h1, if_neg h2, hst]
            dsimp only
            rw [if_pos g1]
          rw [hd rest, hd (rest.take m)]
          exact handleTrackAttr_take true rest st m (fun e he => hnf e ((hd rest).trans he))
        · by_cases g2 : t.value = .str kwPERFORMER ∨ t.value = .str kwSONGWRITER ∨
              t.value = .str kwTITLE
          · have hd : ∀ (r : List Token), handleTag t r st = handleTrackAttr false r st := by
              intro r
              unfold handleTag
              rw [if_neg h1, if_neg h2, hst]
              dsimp only
              rw [if_neg g1, if_pos g2]
            rw [hd rest, hd (rest.take m)]
            exact handleTrackAttr_take false rest st m (fun e he => hnf e ((hd rest).trans he))
          · by_cases g3 : t.value = .str kwFLAGS
            · have hd : ∀ (r : List Token), handleTag t r st =
                  match flagsLoop r with
                  | .stop => .stop st
                  | .fail e => .fail e
                  | .ok _ r2 => .next st r2 := by
                intro r
                unfold handleTag
                rw [if_neg h1, if_neg h2, hst]
                dsimp only
                rw [if_neg g1, if_neg g2, if_pos g3]
              rw [hd rest, hd (rest.take m)]
              cases hf : flagsLoop rest with
              | stop =>
                rw [flagsLoop_take_stop rest hf m]
                exact Or.inl ⟨st, rfl⟩
              | fail e =>
                exfalso
                apply hnf e
                rw [hd rest, hf]
              | ok u r =>
                cases u
                rcases flagsLoop_take_ok rest r hf m with h6 | ⟨k, h6⟩
                · rw [h6]
                  exact Or.inl ⟨st, rfl⟩
                · rw [h6]
                  exact Or.inr ⟨st, r, k, rfl, rfl⟩
            · by_cases g4 : t.value = .str kwPOSTGAP ∨ t.value = .str kwPREGAP
              · have hd : ∀ (r : List Token), handleTag t r st = handleGap r st := by
                  intro r
                  unfold handleTag
                  rw [if_neg h1, if_neg h2, hst]
                  dsimp only
                  rw [if_neg g1, if_neg g2, if_neg g3, if_pos g4]
                rw [hd rest, hd (rest.take m)]
                exact handleGap_take rest st m (fun e he => hnf e ((hd rest).trans he))
              · by_cases g5 : t.value = .str kwINDEX
                · have hd : ∀ (r : List Token), handleTag t r st = handleIndex r st := by
                    intro r
                    unfold handleTag
                    rw [if_neg h1, if_neg h2, hst]
                    dsimp only
                    rw [if_neg g1, if_neg g2, if_neg g3, if_neg g4, if_pos g5]
                  rw [hd rest, hd (rest.take m)]
                  exact handleIndex_take rest st m (fun e he => hnf e ((hd rest).trans he))
                · by_cases g6 : t.value = .str kwFILE
                  · have hd : ∀ (r : List Token), handleTag t r st =
                        match skip_to_eol r with
                        | none => .stop st
                        | some r2 => .next st r2 := by
                      intro r
                      unfold handleTag
                      rw [if_neg h1, if_neg h2, hst]
                      dsimp only
                      rw [if_neg g1, if_neg g2, if_neg g3, if_neg g4, if_neg g5,
                        if_pos g6]
                    rw [hd rest, hd (rest.take m)]
                    cases hs : skip_to_eol rest with
                    | none =>
                      rw [skip_to_eol_take_none rest hs m]
                      exact Or.inl ⟨st, rfl⟩
                    | some r =>
                      rcases skip_to_eol_take_some rest r hs m with h6 | ⟨k, h6⟩
                      · rw [h6]
                        exact Or.inl ⟨st, rfl⟩
                      · rw [h6]
                        exact Or.inr ⟨st, r, k, rfl, rfl⟩
                  · exfalso
                    apply hnf (.invalidTag t.value t.line)
                    unfold handleTag
                    rw [if_neg h1, if_neg h2, hst]
                    dsimp only
                    rw [if_neg g1, if_neg g2, if_neg g3, if_neg g4, if_neg g5,
                      if_neg g6]

/-- A successful parse of the whole stream makes every truncation of the
stream parse successfully as well: StopIteration inside a handler joins
the top-level success path. -/
theorem parseLoopF_take : ∀ fuel toks st sheet,
    parseLoopF fuel toks st = some (.ok sheet) →
    ∀ n, ∃ sheet2, parseFrom (toks.take n) st = .ok sheet2 := by
  intro fuel
  induction fuel with
  | zero => intro toks st sheet h n; simp [parseLoopF] at h
  | succ f ih =>
    intro toks st sheet h n
    cases toks with
    | nil =>
      rw [List.take_nil]
      exact ⟨finish st, parseFrom_nil st⟩
    | cons t rest =>
      simp only [parseLoopF] at h
      by_cases hk : t.kind = TAG
      · rw [if_pos hk] at h
        cases n with
        | zero => exact ⟨finish st, parseFrom_nil st⟩
        | succ m =>
          rw [List.take_succ_cons]
          cases hh : handleTag t rest st with
          | stop st1 =>
            have hnf : ∀ e, handleTag t rest st ≠ .fail e := by
              intro e he
              rw [hh] at he
              exact HRes.noConfusion he
            rcases handleTag_take t rest st m hnf with ⟨st2, htr⟩ | ⟨st1', r', k, hfull, htr⟩
            · exact ⟨finish st2, parseFrom_stop hk htr⟩
            · rw [hh] at hfull
              exact absurd hfull (by simp)
          | fail e =>
            rw [hh] at h
            exact absurd h (by simp)
          | next st1 r =>
            rw [hh] at h
            dsimp only at h
            have hnf : ∀ e, handleTag t rest st ≠ .fail e := by
              intro e he
              rw [hh] at he
              exact HRes.noConfusion he
            rcases handleTag_take t rest st m hnf with ⟨st2, htr⟩ | ⟨st1', r', k, hfull, htr⟩
            · exact ⟨finish st2, parseFrom_stop hk htr⟩
            · rw [hh] at hfull
              injection hfull with he1 he2
              subst he1
              subst he2
              obtain ⟨sheet2, hs⟩ := ih r st1 sheet h k
              exact ⟨sheet2, (parseFrom_next hk htr).trans hs⟩
      · rw [if_neg hk] at h
        exact absurd h (by simp)

/-! ### Settling the claims -/

/-- Claim C10: every token the lexer yields with kind STRING has all
leading and trailing double quotes removed from its value (its value is a
fixed point of quote stripping); in particular the bare token foo-quote
yields the value foo, and the quoted match in quote-quote-ab-quote-quote
yields the value ab with the leftover lone quote stripped to the empty
string - not only one surrounding pair is removed. -/
theorem c10_string_stripped :
    (∀ cuedata ts, tokensFn cuedata = .ok ts → ∀ t ∈ ts, t.kind = STRING →
      ∃ s, t.value = .str s ∧ stripQuotes s = s) ∧
    tokensFn ("foo\"".data) = .ok [⟨.str ("foo".data), STRING, 1⟩] ∧
    tokensFn ("\"\"ab\"\"".data) =
      .ok [⟨.str ("ab".data), STRING, 1⟩, ⟨.str [], STRING, 1⟩] := by
  refine ⟨?_, by decide, by decide⟩
  intro cuedata ts h t ht hk
  exact (tokensFn_inv h t ht).2.2 hk

/-- Claim C10, witness: the general conjunct applied to the concrete
stream produced for the bare input foo-quote. -/
theorem c10_witness :
    ∃ s, (Token.mk (.str ("foo".data)) STRING 1).value = .str s ∧ stripQuotes s = s :=
  c10_string_stripped.1 ("foo\"".data) [⟨.str ("foo".data), STRING, 1⟩]
    (by decide) _ (by decide) (by decide)

/-- Claim C4, counterexample.  The claim states that every token text
deviating from the 12-character ISRC shape (wrong length or wrong
character class) lexes as a STRING or TAG token, never as ISRC.  The
13-character bare word ABcde1234567X deviates from the shape, yet the
lexer matches its 12-character ISRC-shaped prefix first and yields an
ISRC token (followed by a TAG for the leftover X). -/
theorem c4_counterexample :
    ("ABcde1234567X".data).length = 13 ∧
    tokensFn ("ABcde1234567X".data) =
      .ok [⟨.str ("ABcde1234567".data), ISRC, 1⟩, ⟨.str ("X".data), TAG, 1⟩] := by
  exact ⟨by decide, by decide⟩

/-- Claim C4, amended: every token the lexer classifies as ISRC carries
exactly a 12-character text of 2 uppercase letters, 3 alphanumerics and 7
digits, and a buffer consisting of exactly such a word lexes to a single
ISRC token; but a longer bare word whose first 12 characters form the
shape also yields an ISRC token for that prefix, and a quoted occurrence
yields STRING, so a deviating token text does not always lex as STRING or
TAG. -/
theorem c4_isrc_amended :
    (∀ cuedata ts, tokensFn cuedata = .ok ts → ∀ t ∈ ts, t.kind = ISRC →
      ∃ s, t.value = .str s ∧ isrcShape s = true) ∧
    (∀ w, isrcShape w = true → tokensFn w = .ok [⟨.str w, ISRC, 1⟩]) := by
  constructor
  · intro cuedata ts h t ht hk
    exact (tokensFn_inv h t ht).1 hk
  · exact tokensFn_isrc_word

/-- Claim C4, witness: the exact 12-character word ABcde1234567 lexes to
a single ISRC token, by the second conjunct of the amended claim. -/
theorem c4_witness :
    tokensFn ("ABcde1234567".data) = .ok [⟨.str ("ABcde1234567".data), ISRC, 1⟩] :=
  c4_isrc_amended.2 ("ABcde1234567".data) (by decide)

/-- Claim C5: every input that is exactly an mm:ss:ff timestamp - one to
three minute digits, one or two second digits, one or two frame digits -
lexes to a single TIMESTAMP token whose integer value is the frame count
m times 60 times 75 plus s times 75 plus f, where m, s, f are the decimal
values of the digit groups; in particular 01:02:03 lexes to 4653. -/
theorem c5_timestamp :
    (∀ d1 d2 d3 : List Char, d1.all isDigit = true → d2.all isDigit = true →
      d3.all isDigit = true → 1 ≤ d1.length → d1.length ≤ 3 →
      1 ≤ d2.length → d2.length ≤ 2 → 1 ≤ d3.length → d3.length ≤ 2 →
      tokensFn (d1 ++ ':' :: (d2 ++ ':' :: d3)) =
        .ok [⟨.int (charsToNat d1 * 60 * 75 + charsToNat d2 * 75 + charsToNat d3),
          TIMESTAMP, 1⟩]) ∧
    tokensFn ("01:02:03".data) = .ok [⟨.int 4653, TIMESTAMP, 1⟩] ∧
    charsToNat ("01".data) * 60 * 75 + charsToNat ("02".data) * 75 +
      charsToNat ("03".data) = 4653 :=
  ⟨tokensFn_timestamp, by decide, by decide⟩

/-- Claim C5, witness: the general conjunct applied to the digit groups
01, 02, 03. -/
theorem c5_witness :
    tokensFn (("01".data) ++ ':' :: (("02".data) ++ ':' :: ("03".data))) =
      .ok [⟨.int (charsToNat ("01".data) * 60 * 75 + charsToNat ("02".data) * 75 +
        charsToNat ("03".data)), TIMESTAMP, 1⟩] :=
  c5_timestamp.1 ("01".data) ("02".data) ("03".data) (by decide) (by decide)
    (by decide) (by decide) (by decide) (by decide) (by decide) (by decide) (by decide)

/-- Claim C9: the lexer fails with its invalid-token condition exactly at
a whitespace character other than space, carriage return or line feed -
a tab, vertical tab or form feed.  First conjunct: an input containing no
such character tokenizes to completion.  Second conjunct: whenever
tokenization fails, the reported byte offset is the index, in the
original pre-strip buffer, of the offending character, which is a tab,
vertical tab or form feed. -/
theorem c9_invalid_token :
    (∀ cuedata : List Char,
      (∀ c ∈ cuedata, c ≠ '\t' ∧ c ≠ '\x0b' ∧ c ≠ '\x0c') →
      ∃ ts, tokensFn cuedata = .ok ts) ∧
    (∀ cuedata off, tokensFn cuedata = .error off →
      ∃ c t, cuedata.drop off = c :: t ∧ (c = '\t' ∨ c = '\x0b' ∨ c = '\x0c')) := by
  constructor
  · intro cuedata hno
    have hscan := @scanLoopF_run
      ((cuedata.dropWhile (fun c => bomChars.contains c)).length + 1)
      (cuedata.dropWhile (fun c => bomChars.contains c))
      (Nat.lt_succ_self _) 1
    obtain ⟨hsfx, hnone⟩ := scanLoopF_rem _ _ _
      (runScan (cuedata.dropWhile (fun c => bomChars.contains c)) 1).1
      (runScan (cuedata.dropWhile (fun c => bomChars.contains c)) 1).2
      (by rw [hscan])
    cases hrem : (runScan (cuedata.dropWhile (fun c => bomChars.contains c)) 1).2 with
    | nil =>
      refine ⟨(runScan (cuedata.dropWhile (fun c => bomChars.contains c)) 1).1, ?_⟩
      simp only [tokensFn]
      rw [hrem]
      simp
    | cons c t =>
      exfalso
      rw [hrem] at hnone
      have hbad := firstMatch_none_head c t hnone
      obtain ⟨pre2, hpre2⟩ := dropWhile_is_suffix (fun c => bomChars.contains c) cuedata
      rw [hrem] at hsfx
      obtain ⟨pre, hpre⟩ := hsfx
      have hc : c ∈ cuedata := by
        rw [← hpre2, ← hpre]
        simp
      obtain ⟨h1, h2, h3⟩ := hno c hc
      tauto
  · intro cuedata off herr
    simp only [tokensFn] at herr
    by_cases hlen :
        0 < (runScan (cuedata.dropWhile (fun c => bomChars.contains c)) 1).2.length
    · rw [if_pos hlen] at herr
      simp only [Except.error.injEq] at herr
      have hscan := @scanLoopF_run
        ((cuedata.dropWhile (fun c => bomChars.contains c)).length + 1)
        (cuedata.dropWhile (fun c => bomChars.contains c))
        (Nat.lt_succ_self _) 1
      obtain ⟨hsfx, hnone⟩ := scanLoopF_rem _ _ _
        (runScan (cuedata.dropWhile (fun c => bomChars.contains c)) 1).1
        (runScan (cuedata.dropWhile (fun c => bomChars.contains c)) 1).2
        (by rw [hscan])
      obtain ⟨pre2, hpre2⟩ := dropWhile_is_suffix (fun c => bomChars.contains c) cuedata
      obtain ⟨pre, hpre⟩ := hsfx
      cases hrem : (runScan (cuedata.dropWhile (fun c => bomChars.contains c)) 1).2 with
      | nil => rw [hrem] at hlen; simp at hlen
      | cons c t =>
        have hbad := firstMatch_none_head c t (hrem ▸ hnone)
        refine ⟨c, t, ?_, hbad⟩
        rw [hrem] at hpre
        have hcat : (pre2 ++ pre) ++ (c :: t) = cuedata := by
          rw [List.append_assoc, hpre, hpre2]
        have hofflen : off = (pre2 ++ pre).length := by
          rw [hrem] at herr
          have hl := congrArg List.length hcat
          simp only [List.length_append, List.length_cons] at hl
          simp only [List.length_cons] at herr
          simp only [List.length_append]
          omega
        rw [hofflen, ← hcat, List.drop_left]
    · rw [if_neg hlen] at herr
      exact absurd herr (by simp)

/-- Claim C9, witness: the failing conjunct applied to the input a-tab-b,
whose reported offset 1 is the index of the tab in the original buffer. -/
theorem c9_witness :
    ∃ c t, ("a\tb".data).drop 1 = c :: t ∧ (c = '\t' ∨ c = '\x0b' ∨ c = '\x0c') :=
  c9_invalid_token.2 ("a\tb".data) 1 (by decide)

/-- Claim C3: parsing a complete INDEX directive with frame count f while
a track is open appends exactly SheetIndex(number, f/75) to the open
track - an exact rational with no floating-point rounding - and changes
nothing else; mkRat f 75 is the exact rational f/75, frame count 150
gives offset exactly 2, and frame count 1 gives offset exactly 1/75. -/
theorem c3_index_offset :
    (∀ (st : PState) (tn : TokValue), st.track_number = some tn →
      ∀ (n : TokValue) (f : Nat) (ln l2 l3 l4 : Nat) (ev : TokValue) (rest : List Token),
      parseFrom (⟨.str kwINDEX, TAG, ln⟩ :: ⟨n, NUMBER, l2⟩ :: ⟨.int f, TIMESTAMP, l3⟩ ::
          ⟨ev, EOL, l4⟩ :: rest) st =
        parseFrom rest { st with track_indexes := st.track_indexes ++ [⟨n, mkRat f 75⟩] }) ∧
    (∀ f : Nat, (mkRat f 75 : ℚ) = (f : ℚ) / 75) ∧
    parseCue ("TRACK 01 AUDIO\r\nINDEX 01 00:02:00\r\n".data) =
      some ⟨[⟨.int 1, [⟨.int 1, 2⟩], true, none⟩], none⟩ ∧
    parseCue ("TRACK 01 AUDIO\r\nINDEX 01 00:00:01\r\n".data) =
      some ⟨[⟨.int 1, [⟨.int 1, mkRat 1 75⟩], true, none⟩], none⟩ := by
  refine ⟨?_, ?_, by decide, by decide⟩
  · intro st tn hst n f ln l2 l3 l4 ev rest
    exact parseFrom_next rfl (handleTag_index st tn hst n f ln l2 l3 l4 ev rest)
  · intro f
    rw [Rat.mkRat_eq_div]
    push_cast
    ring

/-- Claim C3, witness: the step conjunct applied to a concrete open-track
state and the INDEX 01 00:02:00 line (frame count 150), together with the
exactness conjunct at 150. -/
theorem c3_witness :
    parseFrom [⟨.str kwINDEX, TAG, 2⟩, ⟨.int 1, NUMBER, 2⟩, ⟨.int 150, TIMESTAMP, 2⟩,
        ⟨.str ['\n'], EOL, 3⟩] ⟨[], none, some (.int 1), [], true, none⟩ =
      parseFrom [] ⟨[], none, some (.int 1), [⟨.int 1, mkRat 150 75⟩], true, none⟩ ∧
    (mkRat 150 75 : ℚ) = ((150 : Nat) : ℚ) / 75 :=
  ⟨c3_index_offset.1 ⟨[], none, some (.int 1), [], true, none⟩ (.int 1) rfl
      (.int 1) 150 2 2 2 3 (.str ['\n']) [],
    c3_index_offset.2.1 150⟩

/-- Claim C8: parsing a well-formed FLAGS line inside a track leaves
every stored field of the open track (and the whole parser state)
unchanged - the collected flag values are discarded - so a sheet with and
without the FLAGS line parses to the same Sheet; the second conjunct
shows a concrete input pair differing only in a FLAGS DCP SCMS line
producing identical results. -/
theorem c8_flags_no_effect :
    (∀ (st : PState) (tn : TokValue), st.track_number = some tn →
      ∀ (ln : Nat) (fts : List Token),
        (∀ t ∈ fts, (t.kind = STRING ∨ t.kind = TAG) ∧ noEolChars t.value = true) →
        ∀ (eolt : Token), eolt.kind = EOL → noEolChars eolt.value = false →
        ∀ rest : List Token,
          parseFrom (⟨.str kwFLAGS, TAG, ln⟩ :: (fts ++ eolt :: rest)) st =
            parseFrom rest st) ∧
    parseCue ("TRACK 01 AUDIO\r\nFLAGS DCP SCMS\r\nINDEX 01 00:00:00\r\n".data) =
      parseCue ("TRACK 01 AUDIO\r\nINDEX 01 00:00:00\r\n".data) := by
  refine ⟨?_, by decide⟩
  intro st tn hst ln fts hf eolt he hv rest
  exact parseFrom_next rfl (handleTag_flags st tn hst ln fts hf eolt he hv rest)

/-- Claim C8, witness: the FLAGS conjunct applied to a concrete
open-track state and the line FLAGS DCP eol. -/
theorem c8_witness :
    parseFrom [⟨.str kwFLAGS, TAG, 2⟩, ⟨.str ("DCP".data), TAG, 2⟩, ⟨.str ['\n'], EOL, 3⟩]
        ⟨[], none, some (.int 1), [], true, none⟩ =
      parseFrom [] ⟨[], none, some (.int 1), [], true, none⟩ :=
  c8_flags_no_effect.1 ⟨[], none, some (.int 1), [], true, none⟩ (.int 1) rfl 2
    [⟨.str ("DCP".data), TAG, 2⟩] (by decide) ⟨.str ['\n'], EOL, 3⟩ (by decide)
    (by decide) []

/-- Claim C7: for every successful parse of a stream made of pre-track
directives (CATALOG / CDTEXTFILE / PERFORMER / SONGWRITER / TITLE /
FILE / REM lines) followed either by nothing or by the first TRACK
directive and arbitrary further tokens, the resulting Sheet's catalog
equals the value of the last CATALOG directive occurring before the
first TRACK (later CATALOG directives silently overwriting earlier
ones), and is none when no CATALOG occurs there; once a track is open
no handler touches the catalog field, so whatever follows the first
TRACK leaves it unchanged. -/
theorem c7_catalog (ds : List PreDir) (hwf : ∀ d ∈ ds, WFPreDir d)
    (rest : List Token)
    (hrest : rest = [] ∨ ∃ t rest2, rest = t :: rest2 ∧ t.kind = TAG ∧
      t.value = .str kwTRACK)
    (sheet : Sheet) (hp : parse (renderPre ds ++ rest) = .ok sheet) :
    sheet.catalog = lastCatalog ds := by
  unfold parse at hp
  rw [parseFrom_preRun ds hwf initState rfl rest] at hp
  have hcat : (ds.foldl applyDir initState).cuesheet_catalog_number =
      lastCatalog ds := by
    rw [foldl_applyDir_catalog ds initState]
    cases lastCatalog ds <;> rfl
  rcases hrest with rfl | ⟨t, rest2, rfl, hk, hv⟩
  · rw [parseFrom_nil] at hp
    simp only [Except.ok.injEq] at hp
    rw [← hp]
    show (ds.foldl applyDir initState).cuesheet_catalog_number = _
    exact hcat
  · have hht : handleTag t rest2 (ds.foldl applyDir initState) =
        handleTrack rest2 (ds.foldl applyDir initState) := by
      unfold handleTag
      rw [hv, if_neg (by decide), if_pos rfl]
    cases hh : handleTrack rest2 (ds.foldl applyDir initState) with
    | stop st2 =>
      rw [parseFrom_stop hk (hht.trans hh)] at hp
      simp only [Except.ok.injEq] at hp
      have hkeep := handleTrack_keeps rest2 (ds.foldl applyDir initState)
      rw [hh] at hkeep
      rw [← hp]
      show st2.cuesheet_catalog_number = _
      rw [hkeep.1, hcat]
    | fail e =>
      rw [parseFrom_fail hk (hht.trans hh)] at hp
      exact absurd hp (by simp)
    | next st2 r =>
      rw [parseFrom_next hk (hht.trans hh)] at hp
      have hkeep := handleTrack_keeps rest2 (ds.foldl applyDir initState)
      rw [hh] at hkeep
      have hrun : parseLoopF (r.length + 1) r st2 = some (.ok sheet) := by
        rw [parseLoopF_run (Nat.lt_succ_self _) st2, hp]
      rw [parseLoopF_catalog_stable (r.length + 1) r st2 sheet hkeep.2 hrun,
        hkeep.1, hcat]

/-- Claim C7, witness: two CATALOG directives followed by nothing; the
parse succeeds with the empty track list and the catalog of the second
(last) directive. -/
theorem c7_witness :
    (Sheet.mk [] (some (.str ['Y']))).catalog =
      lastCatalog [.catalog (.str ['X']) 1, .catalog (.str ['Y']) 2] :=
  c7_catalog [.catalog (.str ['X']) 1, .catalog (.str ['Y']) 2]
    (by intro d hd; fin_cases hd <;> trivial) [] (Or.inl rfl)
    (Sheet.mk [] (some (.str ['Y']))) (by decide)

/-- Claim C1, counterexample.  The claim states that reaching the end of
the token stream while the parser is fulfilling an expect (get_value or
the REM/FILE skip-to-end-of-line) fails with a stream-exhaustion error
rather than returning a Sheet.  On the input TRACK the stream is
exhausted inside the get_value call that expects the track number, and on
the second input inside the skip-to-end-of-line of a trailing REM; in
both cases the code returns the accumulated Sheet, because the
StopIteration raised inside get_value and skip_to_eol propagates into the
same except handler that serves the top-level loop. -/
theorem c1_counterexample :
    parseCue ("TRACK".data) = some ⟨[], none⟩ ∧
    parseCue ("TRACK 01 AUDIO\r\nREM".data) =
      some ⟨[⟨.int 1, [], true, none⟩], none⟩ := by
  constructor
  · decide
  · decide

/-- Claim C1, amended: end of stream reached while the parser is
fulfilling an expect (inside get_value or the REM/FILE skip-to-end-of-
line) is treated exactly like exhaustion at the top-level loop boundary -
the StopIteration propagates into the same except handler, which flushes
any open track and returns the accumulated Sheet.  Consequently
truncating any successfully parsed token stream at any point still
yields a Sheet, never a stream-exhaustion error. -/
theorem c1_truncation_amended (toks : List Token) (sheet : Sheet)
    (hp : parse toks = .ok sheet) (n : Nat) :
    ∃ sheet2, parse (toks.take n) = .ok sheet2 := by
  unfold parse at hp ⊢
  have hrun : parseLoopF (toks.length + 1) toks initState = some (.ok sheet) := by
    rw [parseLoopF_run (Nat.lt_succ_self _) initState, hp]
  exact parseLoopF_take (toks.length + 1) toks initState sheet hrun n

/-- Claim C1, witness for the amended statement: the stream
TRACK 01 AUDIO eol parses to a one-track sheet, and its one-token
truncation TRACK - exhausted inside the get_value expecting the track
number - still parses to a Sheet. -/
theorem c1_witness :
    ∃ sheet2, parse ([⟨.str kwTRACK, TAG, 1⟩, ⟨.int 1, NUMBER, 1⟩,
      ⟨.str kwAUDIO, TAG, 1⟩, ⟨.str ['\n'], EOL, 2⟩].take 1) = .ok sheet2 :=
  c1_truncation_amended
    [⟨.str kwTRACK, TAG, 1⟩, ⟨.int 1, NUMBER, 1⟩,
      ⟨.str kwAUDIO, TAG, 1⟩, ⟨.str ['\n'], EOL, 2⟩]
    ⟨[⟨.int 1, [], true, none⟩], none⟩ (by decide) 1

/-- Claim C2, evaluation at the failing input.  The claim states that
only an exact leading EF BB BF sequence is ever removed and that inputs
not beginning with it lose no bytes.  The code instead calls
lstrip with the three BOM bytes as a character set: a lone leading BB
byte is stripped (first conjunct, the input does not begin with EF BB
BF yet its first byte is removed and the remainder lexes as the tag A),
and a doubled BOM is stripped entirely (second conjunct). -/
theorem c2_code_eval :
    tokensFn [Char.ofNat 0xBB, 'A'] = .ok [⟨.str ['A'], TAG, 1⟩] ∧
    tokensFn (bomChars ++ bomChars ++ ['A']) = .ok [⟨.str ['A'], TAG, 1⟩] := by
  constructor
  · decide
  · decide

/-- Claim C6, evaluation at the failing input.  The claim states that
every track opened by a TRACK directive is appended to the sheet exactly
once.  On the input TRACK 01 AUDIO eol TRACK the parse succeeds and the
single opened track appears twice: it is flushed when the second TRACK
directive is seen, and the StopIteration raised while expecting the new
track number is caught by the handler that - seeing the still-set
track_number - flushes the same track again. -/
theorem c6_code_eval :
    parseCue ("TRACK 01 AUDIO\r\nTRACK".data) =
      some ⟨[⟨.int 1, [], true, none⟩, ⟨.int 1, [], true, none⟩], none⟩ := by
  decide

end Cue
